import Mathlib

/-!
Verification of the document-analysis pipeline of `desktop_parser`.

The embedding models the operative `DocAnalyzer` class (the one exported last,
built on top of `LLMService`) together with the earlier `DocAnalyzer` variant in
`src/analyzers/doc-analyzer.js` where a claim refers to it.  JavaScript strings
are modelled as `List Char` (`Str`), JSON values as the inductive `JsValue`,
`JSON.parse` as a fuel-based recursive-descent function `jsonParse`, and the
LLM transport (`LLMService.query`, which returns the completion text or
throws) as an abstract `Oracle : Str → Str → Except JsError Str`.
Exceptions are modelled with `Except`; `try`/`catch` becomes a `match`.
-/

set_option maxRecDepth 4000

/-- JavaScript strings, modelled as lists of characters. -/
abbrev Str : Type := List Char

/-- JSON values as produced by `JSON.parse`.  Numbers keep their source lexeme
(the repository never computes with parsed numbers, so no float semantics are
needed). -/
inductive JsValue : Type where
  | null : JsValue
  | bool (b : Bool) : JsValue
  | num (lexeme : String) : JsValue
  | str (s : String) : JsValue
  | arr (xs : List JsValue) : JsValue
  | obj (fields : List (String × JsValue)) : JsValue
  deriving Repr

mutual

/-- Boolean equality on `JsValue` (the nested inductive prevents deriving). -/
def JsValue.beq : JsValue → JsValue → Bool
  | .null, .null => true
  | .bool a, .bool b => a == b
  | .num a, .num b => a == b
  | .str a, .str b => a == b
  | .arr xs, .arr ys => JsValue.beqList xs ys
  | .obj fs, .obj gs => JsValue.beqFields fs gs
  | _, _ => false

/-- Boolean equality on lists of `JsValue`. -/
def JsValue.beqList : List JsValue → List JsValue → Bool
  | [], [] => true
  | x :: xs, y :: ys => JsValue.beq x y && JsValue.beqList xs ys
  | _, _ => false

/-- Boolean equality on association lists of `JsValue`. -/
def JsValue.beqFields : List (String × JsValue) → List (String × JsValue) → Bool
  | [], [] => true
  | (k, v) :: xs, (l, w) :: ys => k == l && JsValue.beq v w && JsValue.beqFields xs ys
  | _, _ => false

end

mutual

theorem JsValue.eq_of_beq : ∀ {a b : JsValue}, JsValue.beq a b = true → a = b
  | .null, .null, _ => rfl
  | .bool _, .bool _, h => by simpa [JsValue.beq] using h
  | .num _, .num _, h => by simpa [JsValue.beq] using h
  | .str _, .str _, h => by simpa [JsValue.beq] using h
  | .arr xs, .arr ys, h => by
      have := @JsValue.eqList_of_beqList xs ys (by simpa [JsValue.beq] using h)
      simp [this]
  | .obj fs, .obj gs, h => by
      have := @JsValue.eqFields_of_beqFields fs gs (by simpa [JsValue.beq] using h)
      simp [this]

theorem JsValue.eqList_of_beqList :
    ∀ {xs ys : List JsValue}, JsValue.beqList xs ys = true → xs = ys
  | [], [], _ => rfl
  | x :: xs, y :: ys, h => by
      simp only [JsValue.beqList, Bool.and_eq_true] at h
      have h1 := JsValue.eq_of_beq h.1
      have h2 := JsValue.eqList_of_beqList h.2
      simp [h1, h2]

theorem JsValue.eqFields_of_beqFields :
    ∀ {xs ys : List (String × JsValue)}, JsValue.beqFields xs ys = true → xs = ys
  | [], [], _ => rfl
  | (k, v) :: xs, (l, w) :: ys, h => by
      simp only [JsValue.beqFields, Bool.and_eq_true] at h
      have h1 := JsValue.eq_of_beq h.1.2
      have h2 := JsValue.eqFields_of_beqFields h.2
      have h3 : k = l := by simpa using h.1.1
      simp [h1, h2, h3]

end

mutual

theorem JsValue.beq_refl : ∀ (a : JsValue), JsValue.beq a a = true
  | .null => rfl
  | .bool _ => by simp [JsValue.beq]
  | .num _ => by simp [JsValue.beq]
  | .str _ => by simp [JsValue.beq]
  | .arr xs => by simpa [JsValue.beq] using JsValue.beqList_refl xs
  | .obj fs => by simpa [JsValue.beq] using JsValue.beqFields_refl fs

theorem JsValue.beqList_refl : ∀ (xs : List JsValue), JsValue.beqList xs xs = true
  | [] => rfl
  | x :: xs => by simp [JsValue.beqList, JsValue.beq_refl x, JsValue.beqList_refl xs]

theorem JsValue.beqFields_refl : ∀ (xs : List (String × JsValue)), JsValue.beqFields xs xs = true
  | [] => rfl
  | (k, v) :: xs => by simp [JsValue.beqFields, JsValue.beq_refl v, JsValue.beqFields_refl xs]

end

instance : DecidableEq JsValue := fun a b =>
  if h : JsValue.beq a b = true then .isTrue (JsValue.eq_of_beq h)
  else .isFalse (fun he => h (he ▸ JsValue.beq_refl a))

/-- JavaScript whitespace characters relevant to `trim` and `\s`
(space, tab, newline, carriage return, vertical tab, form feed). -/
def isJsWs (c : Char) : Bool :=
  c = ' ' || c = '\t' || c = '\n' || c = '\r' || c = '\x0b' || c = '\x0c'

/-- `String.prototype.trim`. -/
def jsTrim (s : Str) : Str :=
  ((s.dropWhile isJsWs).reverse.dropWhile isJsWs).reverse

/-- Does `needle` occur in `hay` starting at index `i`? -/
def needleAt (hay needle : Str) (i : Nat) : Bool :=
  (hay.drop i).take needle.length = needle

/-- Scan for the first index at which `p` holds; `i` is the index of the head. -/
def firstIdxAux (p : Char → Bool) : Str → Nat → Option Nat
  | [], _ => none
  | c :: rest, i => if p c then some i else firstIdxAux p rest (i + 1)

/-- `String.prototype.indexOf` for a single character: first index or `-1`. -/
def jsIndexOfChar (s : Str) (c : Char) : Int :=
  match firstIdxAux (fun x => x = c) s 0 with
  | some i => (i : Int)
  | none => -1

/-- Scan remembering the last index at which `p` held. -/
def lastIdxAux (p : Char → Bool) : Str → Nat → Option Nat → Option Nat
  | [], _, acc => acc
  | c :: rest, i, acc => lastIdxAux p rest (i + 1) (if p c then some i else acc)

/-- `String.prototype.lastIndexOf` for a single character (no fromIndex):
last index or `-1`. -/
def jsLastIndexOfChar (s : Str) (c : Char) : Int :=
  match lastIdxAux (fun x => x = c) s 0 none with
  | some i => (i : Int)
  | none => -1

/-- Search downward from `i` for the largest index at which `needle` occurs. -/
def lastSubAux (hay needle : Str) : Nat → Option Nat
  | 0 => if needleAt hay needle 0 then some 0 else none
  | j + 1 => if needleAt hay needle (j + 1) then some (j + 1) else lastSubAux hay needle j

/-- `String.prototype.lastIndexOf(needle, fromIndex)`: the largest index
`≤ fromIndex` at which `needle` begins, or `-1`. -/
def jsLastIndexOf (hay needle : Str) (fromIdx : Nat) : Int :=
  match lastSubAux hay needle (min fromIdx hay.length) with
  | some i => (i : Int)
  | none => -1

/-- `String.prototype.substring(a, b)` for `a ≤ b` (the only way the code
calls it). -/
def jsSubstring (s : Str) (a b : Nat) : Str :=
  (s.drop a).take (b - a)

/-- Does `sub` occur anywhere in `hay` (`String.prototype.includes`)? -/
def strIncludes (hay sub : Str) : Bool :=
  (List.range (hay.length + 1)).any (fun i => needleAt hay sub i)

/-- JSON-grammar whitespace (as accepted by `JSON.parse`). -/
def isJsonWs (c : Char) : Bool :=
  c = ' ' || c = '\t' || c = '\n' || c = '\r'

/-- Skip JSON whitespace. -/
def skipWs (s : Str) : Str := s.dropWhile isJsonWs

/-- Hex digit value, for `\u` escapes. -/
def hexVal (c : Char) : Option Nat :=
  if '0' ≤ c ∧ c ≤ '9' then some (c.toNat - '0'.toNat)
  else if 'a' ≤ c ∧ c ≤ 'f' then some (c.toNat - 'a'.toNat + 10)
  else if 'A' ≤ c ∧ c ≤ 'F' then some (c.toNat - 'A'.toNat + 10)
  else none

/-- Decimal digit test. -/
def isDigitCh (c : Char) : Bool := '0' ≤ c && c ≤ '9'

/-- Parse the body of a JSON string literal (after the opening quote),
returning the decoded characters and the input remaining after the closing
quote.  Rejects unescaped control characters and bad escapes, as
`JSON.parse` does. -/
def pStrBody : Nat → Str → Option (Str × Str)
  | 0, _ => none
  | _, '"' :: rest => some ([], rest)
  | f + 1, '\\' :: e :: rest =>
    let cont : Char → Str → Option (Str × Str) := fun c r =>
      (pStrBody f r).map (fun p => (c :: p.1, p.2))
    if e = '"' then cont '"' rest
    else if e = '\\' then cont '\\' rest
    else if e = '/' then cont '/' rest
    else if e = 'b' then cont '\x08' rest
    else if e = 'f' then cont '\x0c' rest
    else if e = 'n' then cont '\n' rest
    else if e = 'r' then cont '\r' rest
    else if e = 't' then cont '\t' rest
    else if e = 'u' then
      match rest with
      | h1 :: h2 :: h3 :: h4 :: rest2 =>
        match hexVal h1, hexVal h2, hexVal h3, hexVal h4 with
        | some a, some b, some c, some d =>
          cont (Char.ofNat (((a * 16 + b) * 16 + c) * 16 + d)) rest2
        | _, _, _, _ => none
      | _ => none
    else none
  | f + 1, c :: rest =>
    if c.toNat < 32 then none
    else (pStrBody f rest).map (fun p => (c :: p.1, p.2))
  | _, [] => none

/-- Lex a JSON number starting at the head of `s`; returns the lexeme and the
rest.  Follows the JSON grammar `-?(0|[1-9][0-9]*)(\.[0-9]+)?([eE][+-]?[0-9]+)?`. -/
def lexNumber (s : Str) : Option (Str × Str) :=
  let (neg, s1) : Str × Str := match s with
    | '-' :: r => (['-'], r)
    | _ => ([], s)
  let intPart : Option (Str × Str) := match s1 with
    | '0' :: r => some (['0'], r)
    | c :: _ =>
      if isDigitCh c ∧ c ≠ '0' then
        let (ds, r) := s1.span isDigitCh
        some (ds, r)
      else none
    | [] => none
  match intPart with
  | none => none
  | some (ip, r1) =>
    let (fp, r2) : Str × Str := match r1 with
      | '.' :: r =>
        let (ds, rr) := r.span isDigitCh
        if ds = [] then (['#'], r1) else ('.' :: ds, rr)
      | _ => ([], r1)
    if fp = ['#'] then none
    else
      let (ep, r3) : Str × Str := match r2 with
        | 'e' :: r =>
          let (sgn, rr) : Str × Str := match r with
            | '+' :: t => (['+'], t) | '-' :: t => (['-'], t) | _ => ([], r)
          let (ds, rrr) := rr.span isDigitCh
          if ds = [] then (['#'], r2) else ('e' :: sgn ++ ds, rrr)
        | 'E' :: r =>
          let (sgn, rr) : Str × Str := match r with
            | '+' :: t => (['+'], t) | '-' :: t => (['-'], t) | _ => ([], r)
          let (ds, rrr) := rr.span isDigitCh
          if ds = [] then (['#'], r2) else ('E' :: sgn ++ ds, rrr)
        | _ => ([], r2)
      if ep = ['#'] then none
      else some (neg ++ ip ++ fp ++ ep, r3)

mutual

/-- Recursive-descent JSON value parser (fuel-indexed; fuel `length + 1` is
always enough since every nesting level consumes input). -/
def pVal : Nat → Str → Option (JsValue × Str)
  | 0, _ => none
  | f + 1, s =>
    match skipWs s with
    | [] => none
    | c :: rest =>
      if c = '\x7b' then
        match skipWs rest with
        | '\x7d' :: r2 => some (.obj [], r2)
        | r2 => (pMembers f r2).map (fun p => (.obj p.1, p.2))
      else if c = '[' then
        match skipWs rest with
        | ']' :: r2 => some (.arr [], r2)
        | r2 => (pItems f r2).map (fun p => (.arr p.1, p.2))
      else if c = '"' then
        (pStrBody (f + 1) rest).map (fun p => (.str (String.mk p.1), p.2))
      else if c = 't' then
        if needleAt (c :: rest) ("true".data) 0 then some (.bool true, rest.drop 3) else none
      else if c = 'f' then
        if needleAt (c :: rest) ("false".data) 0 then some (.bool false, rest.drop 4) else none
      else if c = 'n' then
        if needleAt (c :: rest) ("null".data) 0 then some (.null, rest.drop 3) else none
      else if c = '-' ∨ isDigitCh c then
        (lexNumber (c :: rest)).map (fun p => (.num (String.mk p.1), p.2))
      else none

/-- Parse one or more `"key": value` members followed by `}`. -/
def pMembers : Nat → Str → Option (List (String × JsValue) × Str)
  | 0, _ => none
  | f + 1, s =>
    match skipWs s with
    | '"' :: rest =>
      match pStrBody (f + 1) rest with
      | none => none
      | some (key, r1) =>
        match skipWs r1 with
        | ':' :: r2 =>
          match pVal f r2 with
          | none => none
          | some (v, r3) =>
            match skipWs r3 with
            | ',' :: r4 =>
              (pMembers f r4).map (fun p => ((String.mk key, v) :: p.1, p.2))
            | '\x7d' :: r4 => some ([(String.mk key, v)], r4)
            | _ => none
        | _ => none
    | _ => none

/-- Parse one or more array items followed by `]`. -/
def pItems : Nat → Str → Option (List JsValue × Str)
  | 0, _ => none
  | f + 1, s =>
    match pVal f s with
    | none => none
    | some (v, r1) =>
      match skipWs r1 with
      | ',' :: r2 => (pItems f r2).map (fun p => (v :: p.1, p.2))
      | ']' :: r2 => some ([v], r2)
      | _ => none

end

/-- `JSON.parse`: parse a complete JSON text (trailing whitespace allowed),
`none` models a thrown `SyntaxError`. -/
def jsonParse (s : Str) : Option JsValue :=
  match pVal (s.length + 1) s with
  | some (v, rest) => if skipWs rest = [] then some v else none
  | none => none

/-- Escape one character for a JSON string literal (`JSON.stringify`). -/
def jsonEscapeChar (c : Char) : Str :=
  if c = '"' then ['\\', '"']
  else if c = '\\' then ['\\', '\\']
  else if c = '\n' then ['\\', 'n']
  else if c = '\r' then ['\\', 'r']
  else if c = '\t' then ['\\', 't']
  else if c = '\x08' then ['\\', 'b']
  else if c = '\x0c' then ['\\', 'f']
  else if c.toNat < 32 then
    let hx := fun (n : Nat) => if n < 10 then Char.ofNat ('0'.toNat + n) else Char.ofNat ('a'.toNat + n - 10)
    ['\\', 'u', '0', '0', hx (c.toNat / 16), hx (c.toNat % 16)]
  else [c]

/-- Serialize a string to a quoted JSON string literal. -/
def jsonQuote (s : String) : Str :=
  '"' :: (s.data.flatMap jsonEscapeChar) ++ ['"']

/-- `n` spaces, for `JSON.stringify(v, null, 2)` indentation. -/
def indentSp (n : Nat) : Str := List.replicate n ' '

mutual

/-- `JSON.stringify(v, null, 2)` on a value at indentation level `ind`. -/
def sfyVal (ind : Nat) : JsValue → Str
  | .null => "null".data
  | .bool true => "true".data
  | .bool false => "false".data
  | .num lx => lx.data
  | .str s => jsonQuote s
  | .arr [] => "[]".data
  | .arr (x :: xs) =>
    '[' :: '\n' :: sfyItems (ind + 2) x xs ++ '\n' :: indentSp ind ++ [']']
  | .obj [] => ['\x7b', '\x7d']
  | .obj ((k, v) :: fs) =>
    '\x7b' :: '\n' :: sfyFields (ind + 2) k v fs ++ '\n' :: indentSp ind ++ ['\x7d']
  termination_by v => sizeOf v

/-- Comma-and-newline separated array items, each on its own indented line. -/
def sfyItems (ind : Nat) (x : JsValue) : List JsValue → Str
  | [] => indentSp ind ++ sfyVal ind x
  | y :: ys => indentSp ind ++ sfyVal ind x ++ ',' :: '\n' :: sfyItems ind y ys
  termination_by xs => sizeOf x + sizeOf xs

/-- Comma-and-newline separated object members, each on its own indented line. -/
def sfyFields (ind : Nat) (k : String) (v : JsValue) : List (String × JsValue) → Str
  | [] => indentSp ind ++ jsonQuote k ++ ':' :: ' ' :: sfyVal ind v
  | (k2, v2) :: gs =>
    indentSp ind ++ jsonQuote k ++ ':' :: ' ' :: sfyVal ind v ++ ',' :: '\n' :: sfyFields ind k2 v2 gs
  termination_by gs => sizeOf v + sizeOf gs

end

/-- `JSON.stringify(v, null, 2)`. -/
def jsonStringify2 (v : JsValue) : Str := sfyVal 0 v

/-- Decimal rendering of a number, for template interpolation. -/
def natToStr (n : Nat) : Str := (toString n).data

/-- A thrown JavaScript error, carrying its `message`. -/
structure JsError : Type where
  message : Str
  deriving DecidableEq, Repr

/-- The LLM transport capability: `LLMService.query(systemPrompt, userPrompt,
options)` resolves to the completion text or throws (its `catch` logs and
rethrows).  Generation options (temperature, maxTokens, responseFormat) do not
change this interface and are abstracted away. -/
def Oracle : Type := Str → Str → Except JsError Str

/-- Outcome of `DocAnalyzer._analyzeChunkWithLLM` for one chunk (the JS object
with fields `success`, `data`, `error`, `wasFixed`, `rawContent`; absent
fields are `none`/`false`). -/
structure ChunkResult : Type where
  success : Bool
  data : Option JsValue
  error : Option Str
  wasFixed : Bool
  rawContent : Str
  deriving DecidableEq, Repr

/-- One LLM call issued by the pipeline, for instrumentation: the connectivity
test call, a per-chunk analysis call, or the synthesis merge call (recording
the valid results being merged). -/
inductive CallRec : Type where
  | test : CallRec
  | chunkCall : CallRec
  | synthCall (validResults : List ChunkResult) : CallRec
  deriving DecidableEq, Repr

/-- The chunk-analysis system prompt built by `DocAnalyzer._createPrompts`
(which ignores `analysisType` and `options`). -/
def chunkSystemPrompt : Str :=
  ("You are a document analyzer. Extract key information from the text and return ONLY a JSON object with this exact structure:\n\n\x7b\n  \"title\": \"Document title\",\n  \"summary\": \"Brief summary\",\n  \"keyPoints\": [\"point 1\", \"point 2\"]\n\x7d\n\nIMPORTANT: Your entire response must be ONLY the JSON. No explanations, no markdown, no additional text.").data

/-- The user prompt built by `DocAnalyzer._createPrompts`. -/
def chunkUserPrompt (chunk : Str) : Str :=
  ("Analyze this text: ").data ++ chunk

/-- The system prompt of `DocAnalyzer.testLLMResponse`. -/
def testSystemPrompt : Str :=
  ("You are a test assistant. \nReturn this exact JSON: \x7b\"test\":\"success\",\"timestamp\":\"now\"\x7d").data

/-- The synthesis system prompt of `DocAnalyzer._synthesizeResults`. -/
def synthSystemPrompt : Str :=
  ("You are an expert at synthesizing multiple document analyses into a coherent and comprehensive assessment. Combine the separate analyses into a unified view that captures the essence of the entire document.").data

/-- `DocAnalyzer._extractJsonFromText`: the inclusive substring from the first
opening brace to the last closing brace, if the first precedes the last. -/
def extractJsonFromText (text : Str) : Option Str :=
  if text = [] then none
  else
    let jsonStartIndex := jsIndexOfChar text '\x7b'
    let jsonEndIndex := jsLastIndexOfChar text '\x7d'
    if 0 ≤ jsonStartIndex ∧ jsonStartIndex < jsonEndIndex then
      some (jsSubstring text jsonStartIndex.toNat (jsonEndIndex.toNat + 1))
    else none

/-- The scan of the fence-stripping replace (fuel-indexed; every step consumes
at least one character, so fuel `length` suffices). -/
def stripGo : Nat → Str → Str
  | 0, _ => []
  | _ + 1, [] => []
  | f + 1, c :: rest =>
    if needleAt (c :: rest) ("\x60\x60\x60json").data 0 then stripGo f ((c :: rest).drop 7)
    else if needleAt (c :: rest) ("\x60\x60\x60").data 0 then stripGo f ((c :: rest).drop 3)
    else c :: stripGo f rest

/-- First pass of `_attemptJsonFix`: the regex replace deleting the Markdown
code-fence markers (the seven-character marker is preferred by the regex
alternation where both match). -/
def stripCodeFences (s : Str) : Str := stripGo s.length s

/-- Second pass of `_attemptJsonFix`: the lookbehind replace prefixing every
double quote whose preceding character in the original string is not a
backslash (`prev` tracks that original predecessor). -/
def escQuotesGo (prev : Option Char) : Str → Str
  | [] => []
  | c :: rest =>
    if c = '"' ∧ prev ≠ some '\\' then '\\' :: '"' :: escQuotesGo (some '"') rest
    else c :: escQuotesGo (some c) rest

/-- Entry point of the quote-escaping pass. -/
def escapeQuotesPass (s : Str) : Str := escQuotesGo none s

/-- Third pass of `_attemptJsonFix`: the single left-to-right replace of
backslash-backslash-quote by backslash-quote. -/
def collapseDoubleEscPass : Str → Str
  | '\\' :: '\\' :: '"' :: rest => '\\' :: '"' :: collapseDoubleEscPass rest
  | c :: rest => c :: collapseDoubleEscPass rest
  | [] => []

/-- Fourth pass of `_attemptJsonFix`: replace every single quote by a double
quote. -/
def singleQuotesPass (s : Str) : Str :=
  s.map (fun c => if c = '\x27' then '"' else c)

/-- The whole normalisation chain of `_attemptJsonFix` producing `cleaned`:
strip fences, trim, escape quotes, collapse double escapes, single to double
quotes. -/
def fixNormalize (s : Str) : Str :=
  singleQuotesPass (collapseDoubleEscPass (escapeQuotesPass (jsTrim (stripCodeFences s))))

/-- The fallback regex of `_attemptJsonFix` matching the outermost brace
block: from the first opening brace to the last closing brace after it. -/
def bracesRegionMatch (s : Str) : Option Str :=
  match firstIdxAux (fun c => c = '\x7b') s 0, lastIdxAux (fun c => c = '\x7d') s 0 none with
  | some i, some j => if i < j then some (jsSubstring s i (j + 1)) else none
  | _, _ => none

/-- `DocAnalyzer._attemptJsonFix`: normalise the candidate, re-parse, and on
failure re-parse the outermost brace block; any failure yields `none` (the
outer `catch` returns `null`). -/
def attemptJsonFix (jsonStr : Str) : Option JsValue :=
  if jsonStr = [] then none
  else
    let cleaned := fixNormalize jsonStr
    match jsonParse cleaned with
    | some v => some v
    | none =>
      match bracesRegionMatch cleaned with
      | some sub => jsonParse sub
      | none => none

/-- The `Failed("Empty response from LLM", "")` chunk result. -/
def emptyFailedResult : ChunkResult :=
  ⟨false, none, some ("Empty response from LLM").data, false, []⟩

/-- The `Failed("JSON parsing failed", raw)` chunk result. -/
def parseFailedResult (raw : Str) : ChunkResult :=
  ⟨false, none, some ("JSON parsing failed").data, false, raw⟩

/-- A chunk result obtained by a thrown error being caught in
`_analyzeChunkWithLLM` (its `rawContent` is the empty string). -/
def caughtFailedResult (e : JsError) : ChunkResult :=
  ⟨false, none, some e.message, false, []⟩

/-- The body of `DocAnalyzer._analyzeChunkWithLLM` before its `catch`:
query the model, reject blank responses, extract and parse JSON, repair on
parse failure.  `_createPrompts` ignores `analysisType` and `options`, so they
do not appear. -/
def analyzeChunkBody (oracle : Oracle) (chunk : Str) : Except JsError ChunkResult := do
  let response ← oracle chunkSystemPrompt (chunkUserPrompt chunk)
  if response = [] ∨ jsTrim response = [] then
    return emptyFailedResult
  else
    match extractJsonFromText response with
    | some jsonContent =>
      match jsonParse jsonContent with
      | some parsedContent => return ⟨true, some parsedContent, none, false, response⟩
      | none =>
        match attemptJsonFix jsonContent with
        | some fixedJson => return ⟨true, some fixedJson, none, true, response⟩
        | none => return parseFailedResult response
    | none => return parseFailedResult response

/-- `DocAnalyzer._analyzeChunkWithLLM`: the body wrapped in the `try`/`catch`
that converts any thrown error into a failed chunk result. -/
def analyzeChunkWithLLM (oracle : Oracle) (chunk : Str) : ChunkResult :=
  match analyzeChunkBody oracle chunk with
  | .ok r => r
  | .error e => caughtFailedResult e

/-- `DocAnalyzer.testLLMResponse`: one model call whose outcome is ignored by
the orchestrator; every exception is caught inside. -/
def testLLMResponse (oracle : Oracle) : Bool :=
  match oracle testSystemPrompt ("Test request").data with
  | .error _ => false
  | .ok response =>
    if response = [] ∨ jsTrim response = [] then false
    else (jsonParse response).isSome

/-- `DocAnalyzer._extractContent` on a string-typed document (the
`typeof document === 'string'` branch; the claims quantify over text
documents). -/
def extractContent (document : Str) : Str := document

/-- The non-printable character test of `_isBinaryContent`. -/
def isNonPrintableCode (n : Nat) : Bool :=
  (n < 32 && !(n = 9) && !(n = 10) && !(n = 13)) || (127 ≤ n && n ≤ 159)

/-- `DocAnalyzer._isBinaryContent`: more than 10% non-printable characters in
the first 1000, or a known binary signature in the first 20 characters.
(`count > sampleSize * 0.1` is modelled exactly as `10 * count > sampleSize`,
which agrees with the float comparison for integer counts.) -/
def isBinaryContent (text : Str) : Bool :=
  if text = [] then true
  else
    let sample := text.take 1000
    let nonPrintableCount := (sample.filter (fun c => isNonPrintableCode c.toNat)).length
    if 10 * nonPrintableCount > sample.length then true
    else
      let start := text.take 20
      (["%PDF-", "PK", "ID3", "GIF", "PNG", "JFIF", "BM", "MZ"].map String.data).any
        (fun sig => strIncludes start sig)

/-- The characters removed by the first replace of `_cleanTextContent`
(control characters other than tab, newline, carriage return). -/
def isStrippedCtrl (c : Char) : Bool :=
  let n := c.toNat
  n ≤ 8 || n = 11 || n = 12 || (14 ≤ n && n ≤ 31) || (127 ≤ n && n ≤ 159)

/-- First replace of `_cleanTextContent`: drop stripped control characters. -/
def cleanCtrlPass (s : Str) : Str := s.filter (fun c => !isStrippedCtrl c)

/-- Emit one completed maximal non-whitespace run for the second replace of
`_cleanTextContent`: runs of 100 or more characters become the marker. -/
def flushBin (run : Str) : Str :=
  if 100 ≤ run.length then ("[BINARY DATA REMOVED]").data else run

/-- Scanner of the second replace of `_cleanTextContent`; `pending` is the
current maximal non-whitespace run. -/
def binGo (pending : Str) : Str → Str
  | [] => flushBin pending
  | c :: rest =>
    if isJsWs c then flushBin pending ++ c :: binGo [] rest
    else binGo (pending ++ [c]) rest

/-- Second replace of `_cleanTextContent`: each maximal run of 100 or more
non-whitespace characters becomes the binary-data marker. -/
def binRunPass (s : Str) : Str := binGo [] s

/-- Emit one completed maximal equal-character run for the third replace of
`_cleanTextContent`: runs of 21 or more become three copies plus the marker
(`$1$1$1 [REPEATED CHARS REMOVED] `). -/
def flushRep (run : Str) : Str :=
  match run with
  | [] => []
  | c :: _ => if 21 ≤ run.length then [c, c, c] ++ (" [REPEATED CHARS REMOVED] ").data else run

/-- Scanner of the third replace of `_cleanTextContent`; `pending` is the
current maximal equal-character run.  Newline and carriage return are never
matched by the dot of `(.)\1{20,}`, so they always flush and pass through. -/
def repGo (pending : Str) : Str → Str
  | [] => flushRep pending
  | c :: rest =>
    if c = '\n' ∨ c = '\r' then flushRep pending ++ c :: repGo [] rest
    else match pending with
      | [] => repGo [c] rest
      | p :: _ =>
        if c = p then repGo (pending ++ [c]) rest
        else flushRep pending ++ repGo [c] rest

/-- Third replace of `_cleanTextContent`: each maximal run of 21 or more
equal characters (the dot of `(.)` matches neither newline nor carriage
return) becomes three copies plus the repeated-chars marker. -/
def repRunPass (s : Str) : Str := repGo [] s

/-- Emit one completed maximal whitespace run for the fourth replace of
`_cleanTextContent`: runs of 3 or more become a paragraph break. -/
def flushWs (run : Str) : Str :=
  if 3 ≤ run.length then ['\n', '\n'] else run

/-- Scanner of the fourth replace of `_cleanTextContent`; `pending` is the
current maximal whitespace run. -/
def wsGo (pending : Str) : Str → Str
  | [] => flushWs pending
  | c :: rest =>
    if isJsWs c then wsGo (pending ++ [c]) rest
    else flushWs pending ++ c :: wsGo [] rest

/-- Fourth replace of `_cleanTextContent`: each maximal run of 3 or more
whitespace characters becomes a paragraph break. -/
def wsRunPass (s : Str) : Str := wsGo [] s

/-- `DocAnalyzer._cleanTextContent`: the four replaces in source order. -/
def cleanTextContent (text : Str) : Str :=
  if text = [] then []
  else wsRunPass (repRunPass (binRunPass (cleanCtrlPass text)))

/-- The loop of the operative (second, shadowing) `DocAnalyzer._splitIntoChunks`
definition: fixed-size slices of 4000 characters (`text.slice(i, i + 4000)`
for `i = 0, 4000, ...`), ignoring the configured `maxChunkSize` and
`overlapSize`.  Fuel-indexed; fuel `length` suffices since every step drops
4000 characters. -/
def effSplitGo : Nat → Str → List Str
  | 0, _ => []
  | f + 1, l => if l = [] then [] else l.take 4000 :: effSplitGo f (l.drop 4000)

/-- The operative `DocAnalyzer._splitIntoChunks` (the second definition in the
class body shadows the boundary-preferring first one): empty text gives no
chunks, otherwise fixed 4000-character slices. -/
def effSplitIntoChunks (text : Str) : List Str :=
  if text = [] then [] else effSplitGo text.length text

/-- The JS object `_analyzeChunkWithLLM` results are embedded into the
envelope or serialized with (field order as in the source object literals). -/
def chunkResultToJs (r : ChunkResult) : JsValue :=
  match r.error with
  | some e =>
    .obj [("success", .bool r.success), ("error", .str (String.mk e)),
          ("rawContent", .str (String.mk r.rawContent))]
  | none =>
    if r.wasFixed then
      .obj [("success", .bool r.success), ("data", r.data.getD .null),
            ("wasFixed", .bool true), ("rawContent", .str (String.mk r.rawContent))]
    else
      .obj [("success", .bool r.success), ("data", r.data.getD .null),
            ("rawContent", .str (String.mk r.rawContent))]

/-- The `!result.error` filter of `_synthesizeResults`: a result is kept when
its `error` field is absent (or an empty, hence falsy, string). -/
def isErrFalsy (r : ChunkResult) : Bool :=
  match r.error with
  | none => true
  | some e => e = []

/-- The sentinel returned by `_synthesizeResults` when no chunk succeeded. -/
def noValidSentinel : JsValue :=
  .obj [("error", .str "No valid analysis results to synthesize"),
        ("message", .str "All chunks failed analysis")]

/-- `contentSummary` of `_synthesizeResults`: the first 500 characters with an
ellipsis when the content is longer. -/
def contentSummaryOf (originalContent : Str) : Str :=
  jsSubstring originalContent 0 500
    ++ (if 500 < originalContent.length then ("...").data else [])

/-- The synthesis user prompt of `_synthesizeResults`, embedding the number of
valid results, the document preview, the analysis type, and
`JSON.stringify(validResults, null, 2)`. -/
def synthUserPrompt (validResults : List ChunkResult) (analysisType : Str)
    (contentSummary : Str) : Str :=
  ("I\x27ve analyzed a document in ").data
    ++ natToStr validResults.length
    ++ (" parts and need you to synthesize these analyses into a single coherent assessment.\n\nDocument preview:\n").data
    ++ contentSummary
    ++ ("\n\nAnalysis type: ").data
    ++ analysisType
    ++ ("\n\nIndividual analysis results:\n").data
    ++ jsonStringify2 (.arr (validResults.map chunkResultToJs))
    ++ ("\n\nPlease synthesize these results into a unified analysis that:\n1. Maintains the same JSON structure as the individual analyses\n2. Eliminates duplication\n3. Resolves any contradictions\n4. Preserves the most important insights\n5. Creates a coherent outline of the entire document\n6. Provides an overall evaluation of the document\x27s structure, content, and importance\n\nYour response should be a single JSON object that follows the same structure as the individual analyses but represents the entire document.").data

/-- `DocAnalyzer._basicCombineResults`: dispatches on `analysisType` to
`this._combineOutlineResults`, `this._combineImportanceResults` or
`this._combineComprehensiveResults` — none of which is defined anywhere in
the class, so the call itself throws a `TypeError`. -/
def basicCombineResults (_validResults : List ChunkResult) (analysisType : Str) :
    Except JsError JsValue :=
  if analysisType = ("outline").data then
    .error ⟨("this._combineOutlineResults is not a function").data⟩
  else if analysisType = ("importance").data then
    .error ⟨("this._combineImportanceResults is not a function").data⟩
  else
    .error ⟨("this._combineComprehensiveResults is not a function").data⟩

/-- `DocAnalyzer._synthesizeResults`: filter to valid results, return the
sentinel if none, otherwise issue one merge query; unparseable merge output
becomes a `synthesisError` object, and a thrown merge query falls back to
`_basicCombineResults` inside the `catch` (whose own throw propagates).
The second component records the merge call, if any, for instrumentation. -/
def synthesizeResults (oracle : Oracle) (chunkResults : List ChunkResult)
    (analysisType : Str) (originalContent : Str) :
    Except JsError JsValue × List CallRec :=
  let validResults := chunkResults.filter isErrFalsy
  if validResults.length = 0 then
    (.ok noValidSentinel, [])
  else
    let userPrompt := synthUserPrompt validResults analysisType (contentSummaryOf originalContent)
    match oracle synthSystemPrompt userPrompt with
    | .ok synthesisResponse =>
      -- `LLMService.query` resolves to a string, so the
      -- `typeof synthesisResponse === 'object'` early return is dead code
      (match jsonParse synthesisResponse with
       | some v => (.ok v, [.synthCall validResults])
       | none =>
         (.ok (.obj [("synthesisError", .str "Could not parse synthesis result"),
                     ("rawSynthesis", .str (String.mk synthesisResponse))]),
          [.synthCall validResults])
      )
    | .error _ => (basicCombineResults validResults analysisType, [.synthCall validResults])

/-- The `meta` object of the result envelope (the multi-chunk branch also
carries a `new Date().toISOString()` timestamp, which is nondeterministic and
not modelled; no claim mentions it). -/
structure AnalysisMeta : Type where
  analysisType : Str
  chunkCount : Nat
  documentLength : Nat
  documentName : Option Str
  deriving DecidableEq, Repr

/-- The `AnalysisResult` envelope `{success, data, error, meta}`.  `data` is
`none` where the source sets `data: null` or omits it, and
`some JsValue.null` where a computed value is the JS `null`. -/
structure Envelope : Type where
  success : Bool
  data : Option JsValue
  error : Option Str
  meta : Option AnalysisMeta
  deriving DecidableEq, Repr

/-- `DocAnalyzer.analyzeDocument`: validate and clean the content, split into
chunks, analyze every chunk, then either return the single chunk result
directly or synthesize; the whole body is wrapped in a `try`/`catch` that
turns any thrown error into `{success:false, error, data:null}`.  All callees
except `_synthesizeResults` handle their own exceptions, so the propagated
error can only come from synthesis (whose fallback combiner throws).
The second component is the instrumentation log of issued LLM calls. -/
def analyzeDocument (oracle : Oracle) (document : Str) (analysisType : Str) :
    Envelope × List CallRec :=
  let content := extractContent document
  if content = [] ∨ isBinaryContent content then
    (⟨false, none, some ("Invalid or binary content detected").data, none⟩, [])
  else
    let _testOutcome := testLLMResponse oracle
    let content2 := cleanTextContent content
    let chunks := effSplitIntoChunks content2
    let chunkResults := chunks.map (analyzeChunkWithLLM oracle)
    let log := CallRec.test :: chunks.map (fun _ => CallRec.chunkCall)
    if chunks.length = 1 then
      (⟨true,
        (match chunkResults with
         | r :: _ => some (chunkResultToJs r)
         | [] => none),
        none,
        some ⟨analysisType, 1, content2.length, none⟩⟩, log)
    else
      match synthesizeResults oracle chunkResults analysisType content2 with
      | (.ok combinedResults, slog) =>
        (⟨true, some combinedResults, none,
          some ⟨analysisType, chunks.length, content2.length, some ("unknown").data⟩⟩,
         log ++ slog)
      | (.error e, slog) =>
        (⟨false, none, some e.message, none⟩, log ++ slog)

/-- `n` copies of the pattern `p`, used to build concrete multi-chunk
documents whose processing is proved by induction instead of evaluation. -/
def repList (n : Nat) (p : Str) : Str :=
  match n with
  | 0 => []
  | k + 1 => p ++ repList k p

@[simp] theorem repList_zero (p : Str) : repList 0 p = [] := rfl

theorem repList_succ (n : Nat) (p : Str) : repList (n + 1) p = p ++ repList n p := rfl

theorem repList_length (n : Nat) (p : Str) : (repList n p).length = n * p.length := by
  induction n with
  | zero => simp
  | succ k ih => simp [repList_succ, ih, Nat.succ_mul, Nat.add_comm]

theorem repList_add (m n : Nat) (p : Str) :
    repList (m + n) p = repList m p ++ repList n p := by
  induction m with
  | zero => simp
  | succ k ih => rw [Nat.succ_add, repList_succ, ih, repList_succ, List.append_assoc]

theorem repList_take (m n : Nat) (p : Str) (h : m ≤ n) :
    (repList n p).take (m * p.length) = repList m p := by
  have hsplit : repList n p = repList m p ++ repList (n - m) p := by
    rw [← repList_add m (n - m) p, Nat.add_sub_cancel' h]
  rw [hsplit, ← repList_length m p, List.take_left]

theorem repList_drop (m n : Nat) (p : Str) (h : m ≤ n) :
    (repList n p).drop (m * p.length) = repList (n - m) p := by
  have hsplit : repList n p = repList m p ++ repList (n - m) p := by
    rw [← repList_add m (n - m) p, Nat.add_sub_cancel' h]
  rw [hsplit, ← repList_length m p, List.drop_left]

theorem mem_repList {c : Char} {n : Nat} {p : Str} (h : c ∈ repList n p) : c ∈ p := by
  induction n with
  | zero => simp at h
  | succ k ih =>
    rw [repList_succ] at h
    rcases List.mem_append.mp h with h1 | h2
    · exact h1
    · exact ih h2

theorem cleanCtrlPass_id {s : Str} (h : ∀ c ∈ s, isStrippedCtrl c = false) :
    cleanCtrlPass s = s := by
  unfold cleanCtrlPass
  exact List.filter_eq_self.mpr (fun a ha => by simp [h a ha])

theorem repGo_single (s : Str) : ∀ (c : Char),
    (∀ a ∈ s, ¬(a = '\n' ∨ a = '\r')) →
    List.Chain' (fun a b => a ≠ b) (c :: s) →
    repGo [c] s = c :: s := by
  induction s with
  | nil =>
    intro c _ _
    simp [repGo, flushRep]
  | cons d t ih =>
    intro c hnl hch
    have hd : ¬(d = '\n' ∨ d = '\r') := hnl d (by simp)
    have hcd : c ≠ d := (List.chain'_cons.mp hch).1
    have hch2 : List.Chain' (fun a b => a ≠ b) (d :: t) := (List.chain'_cons.mp hch).2
    have hnl2 : ∀ a ∈ t, ¬(a = '\n' ∨ a = '\r') := fun a ha => hnl a (by simp [ha])
    simp only [repGo, if_neg hd]
    rw [if_neg (fun h => hcd h.symm)]
    simp [flushRep, ih d hnl2 hch2]

theorem repRunPass_id {s : Str} (hnl : ∀ a ∈ s, ¬(a = '\n' ∨ a = '\r'))
    (hch : List.Chain' (fun a b => a ≠ b) s) : repRunPass s = s := by
  cases s with
  | nil => rfl
  | cons c t =>
    have hc : ¬(c = '\n' ∨ c = '\r') := hnl c (by simp)
    have hnl2 : ∀ a ∈ t, ¬(a = '\n' ∨ a = '\r') := fun a ha => hnl a (by simp [ha])
    unfold repRunPass
    simp only [repGo, if_neg hc]
    exact repGo_single t c hnl2 hch

theorem wsGo_id (s : Str) : ∀ (pending : Str),
    pending.length ≤ 1 →
    (∀ a ∈ pending, isJsWs a = true) →
    List.Chain' (fun a b => ¬(isJsWs a = true ∧ isJsWs b = true)) (pending ++ s) →
    wsGo pending s = pending ++ s := by
  induction s with
  | nil =>
    intro pending hlen _ _
    simp [wsGo, flushWs]
    omega
  | cons d t ih =>
    intro pending hlen hws hch
    by_cases hd : isJsWs d = true
    · match pending, hlen with
      | [], _ =>
        simp only [wsGo, if_pos hd, List.nil_append]
        have := ih [d] (by simp) (by simpa using hd) (by simpa using hch)
        simpa using this
      | [c], _ =>
        exfalso
        have hc : isJsWs c = true := hws c (by simp)
        have hpair := (List.chain'_cons.mp
          (show List.Chain' (fun a b => ¬(isJsWs a = true ∧ isJsWs b = true)) (c :: d :: t)
            from hch)).1
        exact hpair ⟨hc, hd⟩
    · have hflush : flushWs pending = pending := by
        simp [flushWs]
        omega
      simp only [wsGo, if_neg hd, hflush]
      have hch2 : List.Chain' (fun a b => ¬(isJsWs a = true ∧ isJsWs b = true)) t := by
        have h1 : List.Chain' (fun a b => ¬(isJsWs a = true ∧ isJsWs b = true)) (d :: t) := by
          have := List.Chain'.suffix hch (by exact (List.suffix_append pending (d :: t)))
          exact this
        exact h1.tail
      rw [ih [] (by simp) (by simp) (by simpa using hch2)]
      simp

theorem wsRunPass_id {s : Str}
    (hch : List.Chain' (fun a b => ¬(isJsWs a = true ∧ isJsWs b = true)) s) :
    wsRunPass s = s := by
  unfold wsRunPass
  simpa using wsGo_id s [] (by simp) (by simp) (by simpa using hch)

theorem binGo_id (s : Str) : ∀ (pending : Str),
    (∀ a ∈ pending, isJsWs a = false) →
    (∀ t, t <:+ (pending ++ s) → ((t.takeWhile (fun c => !isJsWs c)).length ≤ 99)) →
    binGo pending s = pending ++ s := by
  induction s with
  | nil =>
    intro pending hnw hrun
    have hself := hrun pending (by simp)
    have htw : pending.takeWhile (fun c => !isJsWs c) = pending :=
      List.takeWhile_eq_self_iff.mpr (fun a ha => by simp [hnw a ha])
    rw [htw] at hself
    simp [binGo, flushBin]
    omega
  | cons d t ih =>
    intro pending hnw hrun
    by_cases hd : isJsWs d = true
    · have hflush : flushBin pending = pending := by
        have hself := hrun (pending ++ d :: t) (by simp)
        have htw : (pending ++ d :: t).takeWhile (fun c => !isJsWs c) = pending := by
          rw [List.takeWhile_append]
          have h1 : pending.takeWhile (fun c => !isJsWs c) = pending :=
            List.takeWhile_eq_self_iff.mpr (fun a ha => by simp [hnw a ha])
          simp [h1, List.takeWhile_cons, hd]
        rw [htw] at hself
        simp [flushBin]
        omega
      simp only [binGo, if_pos hd, hflush]
      rw [ih [] (by simp) ?_]
      · simp
      · intro u hu
        exact hrun u (hu.trans ((List.suffix_cons d t).trans (List.suffix_append pending (d :: t))))
    · have heq : pending ++ d :: t = (pending ++ [d]) ++ t := by simp
      simp only [binGo, if_neg hd]
      rw [ih (pending ++ [d]) ?_ ?_]
      · simp
      · intro a ha
        rcases List.mem_append.mp ha with h1 | h2
        · exact hnw a h1
        · simp at h2
          simp [h2, eq_false_of_ne_true hd]
      · intro u hu
        apply hrun u
        rw [heq]
        exact hu

/-- The four-character pattern of the concrete multi-chunk documents. -/
def patDoc : Str := ['a', 'b', 'c', ' ']

/-- A concrete 4200-character document (1050 pattern copies): longer than the
4000-character chunk size, clean under `_cleanTextContent`, and not binary. -/
def docBig : Str := repList 1050 patDoc

/-- The first chunk the operative splitter produces from `docBig`. -/
def chunkA : Str := repList 1000 patDoc

/-- The second chunk the operative splitter produces from `docBig`. -/
def chunkB : Str := repList 50 patDoc

theorem repPat_length (n : Nat) : (repList n patDoc).length = 4 * n := by
  rw [repList_length]
  simp [patDoc]
  omega

theorem repPat_ne_nil {n : Nat} (h : 0 < n) : repList n patDoc ≠ [] := by
  intro hcon
  have := repPat_length n
  rw [hcon] at this
  simp at this
  omega

theorem repPat_cons (n : Nat) :
    repList (n + 1) patDoc = 'a' :: 'b' :: 'c' :: ' ' :: repList n patDoc := by
  rw [repList_succ]
  rfl

theorem repPat_head (n : Nat) (h : 0 < n) : (repList n patDoc).head? = some 'a' := by
  cases n with
  | zero => omega
  | succ k => rw [repPat_cons]; rfl

theorem chain_ne_repPat (n : Nat) : List.Chain' (fun a b => a ≠ b) (repList n patDoc) := by
  induction n with
  | zero => simp
  | succ k ih =>
    rw [repList_succ]
    apply List.chain'_append.mpr
    refine ⟨?_, ih, ?_⟩
    · show List.Chain' (fun a b => a ≠ b) ['a', 'b', 'c', ' ']
      simp [List.chain'_cons]
    · intro x hx y hy
      have hx2 : x = ' ' := by
        simp [patDoc] at hx
        first
        | exact hx
        | exact hx.symm
      subst hx2
      cases k with
      | zero => simp at hy
      | succ m =>
        rw [repPat_head (m + 1) (by omega)] at hy
        simp at hy
        subst hy
        decide

theorem chain_noAdjWs_repPat (n : Nat) :
    List.Chain' (fun a b => ¬(isJsWs a = true ∧ isJsWs b = true)) (repList n patDoc) := by
  induction n with
  | zero => simp
  | succ k ih =>
    rw [repList_succ]
    apply List.chain'_append.mpr
    refine ⟨?_, ih, ?_⟩
    · show List.Chain' (fun a b => ¬(isJsWs a = true ∧ isJsWs b = true)) ['a', 'b', 'c', ' ']
      simp [List.chain'_cons]
      decide
    · intro x hx y hy
      have hx2 : x = ' ' := by
        simp [patDoc] at hx
        first
        | exact hx
        | exact hx.symm
      subst hx2
      cases k with
      | zero => simp at hy
      | succ m =>
        rw [repPat_head (m + 1) (by omega)] at hy
        simp at hy
        subst hy
        decide

theorem runShort_repPat (n : Nat) :
    ∀ t, t <:+ repList n patDoc → ((t.takeWhile (fun c => !isJsWs c)).length ≤ 99) := by
  have ha : (!isJsWs 'a') = true := by decide
  have hb : (!isJsWs 'b') = true := by decide
  have hc : (!isJsWs 'c') = true := by decide
  have hsp : (!isJsWs ' ') = false := by decide
  induction n with
  | zero =>
    intro t ht
    have := List.suffix_nil.mp (by simpa using ht)
    simp [this]
  | succ k ih =>
    intro t ht
    rw [repPat_cons] at ht
    rcases List.suffix_cons_iff.mp ht with h1 | ht2
    · subst h1
      simp [List.takeWhile_cons, ha, hb, hc, hsp]
    · rcases List.suffix_cons_iff.mp ht2 with h1 | ht3
      · subst h1
        simp [List.takeWhile_cons, hb, hc, hsp]
      · rcases List.suffix_cons_iff.mp ht3 with h1 | ht4
        · subst h1
          simp [List.takeWhile_cons, hc, hsp]
        · rcases List.suffix_cons_iff.mp ht4 with h1 | ht5
          · subst h1
            simp [List.takeWhile_cons, hsp]
          · exact ih t ht5

theorem mem_repPat_facts {c : Char} {n : Nat} (h : c ∈ repList n patDoc) :
    isStrippedCtrl c = false ∧ ¬(c = '\n' ∨ c = '\r') := by
  have := mem_repList h
  simp [patDoc] at this
  rcases this with h1 | h1 | h1 | h1 <;> subst h1 <;> exact ⟨by decide, by decide⟩

theorem repPat_clean (n : Nat) : cleanTextContent (repList n patDoc) = repList n patDoc := by
  unfold cleanTextContent
  cases n with
  | zero => simp
  | succ k =>
    rw [if_neg (repPat_ne_nil (by omega))]
    rw [cleanCtrlPass_id (fun c hc => (mem_repPat_facts hc).1)]
    unfold binRunPass
    rw [binGo_id _ [] (by simp) (by simpa using runShort_repPat (k + 1))]
    simp only [List.nil_append]
    rw [repRunPass_id (fun c hc => (mem_repPat_facts hc).2) (chain_ne_repPat (k + 1))]
    exact wsRunPass_id (chain_noAdjWs_repPat (k + 1))

theorem docBig_clean : cleanTextContent docBig = docBig := repPat_clean 1050

theorem docBig_length : docBig.length = 4200 := by
  have := repPat_length 1050
  simpa [docBig] using this

theorem docBig_not_binary : isBinaryContent docBig = false := by
  have htake : docBig.take 1000 = repList 250 patDoc := by
    have h4 : (1000 : Nat) = 250 * patDoc.length := by simp [patDoc]
    rw [docBig, h4, repList_take 250 1050 patDoc (by omega)]
  have hfilter : (docBig.take 1000).filter (fun c => isNonPrintableCode c.toNat) = [] := by
    rw [htake]
    apply List.filter_eq_nil_iff.mpr
    intro c hc
    have := mem_repList hc
    simp [patDoc] at this
    rcases this with h1 | h1 | h1 | h1 <;> subst h1 <;> decide
  have hlen : (docBig.take 1000).length = 1000 := by
    rw [htake]
    simpa using repPat_length 250
  have hstart : docBig.take 20 = repList 5 patDoc := by
    have h4 : (20 : Nat) = 5 * patDoc.length := by simp [patDoc]
    rw [docBig, h4, repList_take 5 1050 patDoc (by omega)]
  simp only [isBinaryContent]
  rw [if_neg (by simpa [docBig] using @repPat_ne_nil 1050 (by omega))]
  rw [hfilter, hlen, hstart]
  norm_num
  decide

theorem effSplitGo_pos {f : Nat} (hf : 0 < f) (l : Str) :
    effSplitGo f l = if l = [] then [] else l.take 4000 :: effSplitGo (f - 1) (l.drop 4000) := by
  cases f with
  | zero => omega
  | succ k => simp [effSplitGo]

theorem docBig_split : effSplitIntoChunks docBig = [chunkA, chunkB] := by
  unfold effSplitIntoChunks
  have hne : docBig ≠ [] := by simpa [docBig] using @repPat_ne_nil 1050 (by omega)
  rw [if_neg hne, docBig_length]
  rw [effSplitGo_pos (by omega), if_neg hne]
  have htake : docBig.take 4000 = chunkA := by
    have h4 : (4000 : Nat) = 1000 * patDoc.length := by simp [patDoc]
    rw [docBig, chunkA, h4, repList_take 1000 1050 patDoc (by omega)]
  have hdrop : docBig.drop 4000 = chunkB := by
    have h4 : (4000 : Nat) = 1000 * patDoc.length := by simp [patDoc]
    rw [docBig, chunkB, h4, repList_drop 1000 1050 patDoc (by omega)]
  rw [htake, hdrop]
  have hBne : chunkB ≠ [] := by simpa [chunkB] using @repPat_ne_nil 50 (by omega)
  have hBlen : chunkB.length = 200 := by simpa [chunkB] using repPat_length 50
  rw [show (4200 : Nat) - 1 = 4199 by norm_num, effSplitGo_pos (by omega), if_neg hBne]
  have htakeB : chunkB.take 4000 = chunkB := List.take_of_length_le (by omega)
  have hdropB : chunkB.drop 4000 = [] := List.drop_eq_nil_of_le (by omega)
  rw [htakeB, hdropB]
  rw [show (4199 : Nat) - 1 = 4198 by norm_num, effSplitGo_pos (by omega)]
  simp

theorem effSplitGo_eq_nil {f : Nat} {l : Str} (h : effSplitGo f l = []) (hf : 0 < f) : l = [] := by
  cases f with
  | zero => omega
  | succ k =>
    by_contra hne
    simp [effSplitGo, hne] at h

theorem effSplit_single {l c : Str} (h : effSplitIntoChunks l = [c]) : c = l := by
  unfold effSplitIntoChunks at h
  by_cases hne : l = []
  · simp [hne] at h
  · rw [if_neg hne] at h
    have hpos : 0 < l.length := List.length_pos.mpr hne
    rw [effSplitGo_pos hpos] at h
    rw [if_neg hne] at h
    have h1 : l.take 4000 = c := (List.cons.injEq _ _ _ _ ▸ h).1
    have h2 : effSplitGo (l.length - 1) (l.drop 4000) = [] := (List.cons.injEq _ _ _ _ ▸ h).2
    by_cases hlen : l.length ≤ 4000
    · rw [← h1, List.take_of_length_le hlen]
    · exfalso
      have hdrop : l.drop 4000 ≠ [] := by
        intro hcon
        have := List.drop_eq_nil_iff.mp hcon
        omega
      exact hdrop (effSplitGo_eq_nil h2 (by omega))

/-- Shape of a two-chunk `analyzeDocument` run: the envelope is assembled from
the synthesis of the two chunk analyses. -/
theorem analyzeDocument_two_chunks (oracle : Oracle) (doc : Str) (analysisType : Str)
    (c1 c2 : Str) (hne : doc ≠ []) (hbin : isBinaryContent doc = false)
    (hclean : cleanTextContent doc = doc)
    (hsplit : effSplitIntoChunks doc = [c1, c2]) :
    analyzeDocument oracle doc analysisType =
      (match synthesizeResults oracle
          [analyzeChunkWithLLM oracle c1, analyzeChunkWithLLM oracle c2] analysisType doc with
       | (.ok v, slog) =>
         (⟨true, some v, none,
           some ⟨analysisType, 2, doc.length, some ("unknown").data⟩⟩,
          [CallRec.test, CallRec.chunkCall, CallRec.chunkCall] ++ slog)
       | (.error e, slog) =>
         (⟨false, none, some e.message, none⟩,
          [CallRec.test, CallRec.chunkCall, CallRec.chunkCall] ++ slog)) := by
  simp only [analyzeDocument, extractContent]
  rw [if_neg (by simp [hne, hbin])]
  rw [hclean, hsplit]
  simp only [List.map, List.length_cons, List.length_nil]
  rw [if_neg (by omega)]

/-- Shape of a single-chunk `analyzeDocument` run: the envelope embeds the one
chunk result directly and no synthesis happens. -/
theorem analyzeDocument_single (oracle : Oracle) (doc : Str) (analysisType : Str)
    (c : Str) (hne : doc ≠ []) (hbin : isBinaryContent doc = false)
    (hsplit : effSplitIntoChunks (cleanTextContent doc) = [c]) :
    analyzeDocument oracle doc analysisType =
      (⟨true, some (chunkResultToJs (analyzeChunkWithLLM oracle c)), none,
        some ⟨analysisType, 1, (cleanTextContent doc).length, none⟩⟩,
       [CallRec.test, CallRec.chunkCall]) := by
  simp only [analyzeDocument, extractContent]
  rw [if_neg (by simp [hne, hbin])]
  rw [hsplit]
  simp

/-- A transport whose merge call returns the JSON text `null`, while chunk
analyses return a small object and the connectivity test returns junk. -/
def oracleNullMerge : Oracle := fun sys _ =>
  if sys = synthSystemPrompt then .ok ("null").data
  else if sys = chunkSystemPrompt then .ok ("\x7b\"a\":1\x7d").data
  else .ok ("x").data

/-- A transport whose merge call throws (a transport fault at the synthesis
step), while chunk analyses succeed. -/
def oracleMergeThrows : Oracle := fun sys _ =>
  if sys = synthSystemPrompt then .error ⟨("network down").data⟩
  else if sys = chunkSystemPrompt then .ok ("\x7b\"a\":1\x7d").data
  else .ok ("x").data

/-- A transport that returns a blank completion for the first (long) chunk and
a small object for the second (short) chunk; chunk prompts are told apart by
their length. -/
def oracleEmptyFirst : Oracle := fun sys usr =>
  if sys = synthSystemPrompt then .ok ("\x7b\"m\":2\x7d").data
  else if sys = chunkSystemPrompt then
    (if usr.drop 300 = [] then .ok ("\x7b\"a\":1\x7d").data else .ok ("  ").data)
  else .ok ("x").data

/-- A transport that always returns a clean JSON object. -/
def oracleTitleX : Oracle := fun sys _ =>
  if sys = chunkSystemPrompt then .ok ("\x7b\"title\":\"X\"\x7d").data
  else .ok ("x").data

/-- A transport whose chunk query throws (a network fault). -/
def oracleChunkThrows : Oracle := fun sys _ =>
  if sys = chunkSystemPrompt then .error ⟨("network down").data⟩
  else .ok ("x").data

/-- The `Ok` chunk result for the completion text of a small `a`-object. -/
def okAResult : ChunkResult :=
  ⟨true, some (.obj [("a", .num "1")]), none, false, ("\x7b\"a\":1\x7d").data⟩

theorem oracleNullMerge_chunk (chunk : Str) :
    analyzeChunkWithLLM oracleNullMerge chunk = okAResult := by
  unfold analyzeChunkWithLLM analyzeChunkBody oracleNullMerge
  rw [if_neg (by decide), if_pos rfl]
  decide

theorem oracleMergeThrows_chunk (chunk : Str) :
    analyzeChunkWithLLM oracleMergeThrows chunk = okAResult := by
  unfold analyzeChunkWithLLM analyzeChunkBody oracleMergeThrows
  rw [if_neg (by decide), if_pos rfl]
  decide

theorem chunkUserPrompt_length (chunk : Str) :
    (chunkUserPrompt chunk).length = 19 + chunk.length := by
  simp [chunkUserPrompt]
  omega

theorem oracleEmptyFirst_chunkA :
    analyzeChunkWithLLM oracleEmptyFirst chunkA = emptyFailedResult := by
  unfold analyzeChunkWithLLM analyzeChunkBody oracleEmptyFirst
  rw [if_neg (by decide), if_pos rfl]
  have hdrop : (chunkUserPrompt chunkA).drop 300 ≠ [] := by
    intro hcon
    have h1 := List.drop_eq_nil_iff.mp hcon
    rw [chunkUserPrompt_length] at h1
    have h2 := repPat_length 1000
    rw [show chunkA = repList 1000 patDoc from rfl] at h1
    omega
  rw [if_neg hdrop]
  decide

theorem oracleEmptyFirst_chunkB :
    analyzeChunkWithLLM oracleEmptyFirst chunkB = okAResult := by
  unfold analyzeChunkWithLLM analyzeChunkBody oracleEmptyFirst
  rw [if_neg (by decide), if_pos rfl]
  have hdrop : (chunkUserPrompt chunkB).drop 300 = [] := by
    apply List.drop_eq_nil_iff.mpr
    rw [chunkUserPrompt_length]
    have h2 := repPat_length 50
    rw [show chunkB = repList 50 patDoc from rfl]
    omega
  rw [if_pos hdrop]
  decide

theorem oracleNullMerge_synth (analysisType originalContent : Str) :
    synthesizeResults oracleNullMerge [okAResult, okAResult] analysisType originalContent
      = (.ok JsValue.null, [.synthCall [okAResult, okAResult]]) := by
  simp only [synthesizeResults]
  rw [show List.filter isErrFalsy [okAResult, okAResult] = [okAResult, okAResult] from by decide]
  rw [if_neg (by decide)]
  have horacle : ∀ u, oracleNullMerge synthSystemPrompt u = .ok (("null").data) := by
    intro u
    unfold oracleNullMerge
    rw [if_pos rfl]
  rw [horacle]
  rfl

theorem oracleMergeThrows_synth (originalContent : Str) :
    synthesizeResults oracleMergeThrows [okAResult, okAResult] (("comprehensive").data)
        originalContent
      = (.error ⟨("this._combineComprehensiveResults is not a function").data⟩,
         [.synthCall [okAResult, okAResult]]) := by
  simp only [synthesizeResults]
  rw [show List.filter isErrFalsy [okAResult, okAResult] = [okAResult, okAResult] from by decide]
  rw [if_neg (by decide)]
  have horacle : ∀ u, oracleMergeThrows synthSystemPrompt u = .error ⟨("network down").data⟩ := by
    intro u
    unfold oracleMergeThrows
    rw [if_pos rfl]
  rw [horacle]
  rfl

theorem oracleEmptyFirst_synth (originalContent : Str) (analysisType : Str) :
    synthesizeResults oracleEmptyFirst [emptyFailedResult, okAResult] analysisType
        originalContent
      = (.ok (.obj [("m", .num "2")]), [.synthCall [okAResult]]) := by
  simp only [synthesizeResults]
  rw [show List.filter isErrFalsy [emptyFailedResult, okAResult] = [okAResult] from by decide]
  rw [if_neg (by decide)]
  have horacle : ∀ u, oracleEmptyFirst synthSystemPrompt u = .ok (("\x7b\"m\":2\x7d").data) := by
    intro u
    unfold oracleEmptyFirst
    rw [if_pos rfl]
  rw [horacle]
  rfl

theorem docBig_ne_nil : docBig ≠ [] := by
  simpa [docBig] using @repPat_ne_nil 1050 (by omega)

/-- C1 (amended): for every invocation of `analyzeDocument`, the envelope
satisfies `success == true ⟺ error == null`, and `success == false` implies
`data == null`.  (The original biconditional with `data != null` fails: a
merge response of the JSON text `null` yields `success:true` with
`data:null`, see the counterexample.) -/
theorem claim1_envelope_amended (oracle : Oracle) (document : Str) (analysisType : Str) :
    ((analyzeDocument oracle document analysisType).1.success = true ↔
      (analyzeDocument oracle document analysisType).1.error = none) ∧
    ((analyzeDocument oracle document analysisType).1.success = false →
      (analyzeDocument oracle document analysisType).1.data = none) := by
  simp only [analyzeDocument, extractContent]
  split
  · simp
  · split
    · simp
    · split <;> simp

/-- C1, counterexample to the claim as stated: a two-chunk document whose
merge response is the JSON text `null` produces a successful envelope whose
`data` is the JS `null`. -/
theorem claim1_counterexample :
    (analyzeDocument oracleNullMerge docBig (("comprehensive").data)).1.success = true ∧
    (analyzeDocument oracleNullMerge docBig (("comprehensive").data)).1.data
      = some JsValue.null := by
  rw [analyzeDocument_two_chunks oracleNullMerge docBig (("comprehensive").data) chunkA chunkB
    docBig_ne_nil docBig_not_binary docBig_clean docBig_split]
  rw [oracleNullMerge_chunk, oracleNullMerge_chunk, oracleNullMerge_synth]
  exact ⟨rfl, rfl⟩

/-- C4: the deterministic fallback combiner does not exist — when the merge
call throws, `_basicCombineResults` calls `this._combineComprehensiveResults`
(undefined on the class), the `TypeError` propagates to the orchestrator, and
the whole `analyzeDocument` envelope fails instead of degrading. -/
theorem claim4_synthesis_fallback_throws :
    (analyzeDocument oracleMergeThrows docBig (("comprehensive").data)).1
      = ⟨false, none, some (("this._combineComprehensiveResults is not a function").data),
         none⟩ := by
  rw [analyzeDocument_two_chunks oracleMergeThrows docBig (("comprehensive").data) chunkA chunkB
    docBig_ne_nil docBig_not_binary docBig_clean docBig_split]
  rw [oracleMergeThrows_chunk, oracleMergeThrows_chunk, oracleMergeThrows_synth]

/-- C9: a blank model response makes `_analyzeChunkWithLLM` return
`Failed("Empty response from LLM", "")` without throwing, and — in a concrete
two-chunk run whose first chunk gets a whitespace response — the sibling
chunk's `Ok` result still reaches the Synthesizer (the merge call records
exactly the sibling's valid result) and the overall analysis still
succeeds. -/
theorem claim9_empty_response :
    (∀ (oracle : Oracle) (chunk s : Str),
      oracle chunkSystemPrompt (chunkUserPrompt chunk) = .ok s → jsTrim s = [] →
      analyzeChunkWithLLM oracle chunk = emptyFailedResult) ∧
    analyzeChunkWithLLM oracleEmptyFirst chunkA = emptyFailedResult ∧
    (analyzeDocument oracleEmptyFirst docBig (("comprehensive").data)).2
      = [.test, .chunkCall, .chunkCall, .synthCall [okAResult]] ∧
    (analyzeDocument oracleEmptyFirst docBig (("comprehensive").data)).1.success = true := by
  refine ⟨?_, oracleEmptyFirst_chunkA, ?_, ?_⟩
  · intro oracle chunk s hresp htrim
    unfold analyzeChunkWithLLM analyzeChunkBody
    rw [hresp]
    show (match (if s = [] ∨ jsTrim s = [] then Except.ok emptyFailedResult
        else _) with
      | Except.ok r => r
      | Except.error e => caughtFailedResult e) = emptyFailedResult
    rw [if_pos (Or.inr htrim)]
  · rw [analyzeDocument_two_chunks oracleEmptyFirst docBig (("comprehensive").data) chunkA chunkB
      docBig_ne_nil docBig_not_binary docBig_clean docBig_split]
    rw [oracleEmptyFirst_chunkA, oracleEmptyFirst_chunkB, oracleEmptyFirst_synth]
    rfl
  · rw [analyzeDocument_two_chunks oracleEmptyFirst docBig (("comprehensive").data) chunkA chunkB
      docBig_ne_nil docBig_not_binary docBig_clean docBig_split]
    rw [oracleEmptyFirst_chunkA, oracleEmptyFirst_chunkB, oracleEmptyFirst_synth]

/-- C9 witness: the blank-response conjunct applied to a concrete transport
and chunk. -/
theorem claim9_empty_response_witness :
    analyzeChunkWithLLM (fun _ _ => .ok (("  ").data)) (("x").data) = emptyFailedResult :=
  claim9_empty_response.1 (fun _ _ => .ok (("  ").data)) (("x").data) (("  ").data)
    rfl (by decide)

/-- C2 (amended): when the document yields exactly one chunk, that chunk is
the whole cleaned text, the Synthesizer is never invoked (the call log is
just the connectivity test and the one chunk call), and the envelope's `data`
is the chunk's full `ChunkResult` record — the object whose own `data` field
holds the parsed analysis — not the parsed analysis data itself. -/
theorem claim2_single_chunk_amended (oracle : Oracle) (document analysisType c : Str)
    (hne : document ≠ []) (hbin : isBinaryContent document = false)
    (hsplit : effSplitIntoChunks (cleanTextContent document) = [c]) :
    c = cleanTextContent document ∧
    analyzeDocument oracle document analysisType
      = (⟨true, some (chunkResultToJs (analyzeChunkWithLLM oracle c)), none,
          some ⟨analysisType, 1, (cleanTextContent document).length, none⟩⟩,
         [CallRec.test, CallRec.chunkCall]) :=
  ⟨effSplit_single hsplit, analyzeDocument_single oracle document analysisType c hne hbin hsplit⟩

/-- C2 witness: the amended statement applied to the 9-character document
`"short doc"` under a transport returning a title object. -/
theorem claim2_single_chunk_witness :
    ("short doc").data = cleanTextContent (("short doc").data) ∧
    analyzeDocument oracleTitleX (("short doc").data) (("comprehensive").data)
      = (⟨true,
          some (chunkResultToJs (analyzeChunkWithLLM oracleTitleX (("short doc").data))), none,
          some ⟨("comprehensive").data, 1, (cleanTextContent (("short doc").data)).length,
            none⟩⟩,
         [CallRec.test, CallRec.chunkCall]) :=
  claim2_single_chunk_amended oracleTitleX (("short doc").data) (("comprehensive").data)
    (("short doc").data) (by decide) (by decide) (by decide)

/-- C2, counterexample to the claim as stated: for the single-chunk document
`"short doc"` whose model response is `{"title":"X"}`, the envelope's `data`
is the wrapped chunk-result object, not the parsed analysis data
`{title:"X"}`. -/
theorem claim2_counterexample :
    (analyzeDocument oracleTitleX (("short doc").data) (("comprehensive").data)).1.data
      = some (.obj [("success", .bool true), ("data", .obj [("title", .str "X")]),
          ("rawContent", .str "\x7b\"title\":\"X\"\x7d")]) ∧
    (analyzeDocument oracleTitleX (("short doc").data) (("comprehensive").data)).1.data
      ≠ some (.obj [("title", .str "X")]) := by
  constructor
  · decide
  · decide

/-- C5 (amended): an exception thrown by the Model Client Adapter's `query`
is caught inside `_analyzeChunkWithLLM` itself and converted into a
chunk-level `Failed` result carrying the exception message with empty raw
content; it does not propagate to the orchestrator boundary. -/
theorem claim5_transport_contained (oracle : Oracle) (chunk : Str) (e : JsError)
    (h : oracle chunkSystemPrompt (chunkUserPrompt chunk) = .error e) :
    analyzeChunkWithLLM oracle chunk = caughtFailedResult e := by
  unfold analyzeChunkWithLLM analyzeChunkBody
  rw [h]
  rfl

/-- C5 witness: the amended statement applied to a transport that always
throws. -/
theorem claim5_transport_contained_witness :
    analyzeChunkWithLLM (fun _ _ => .error ⟨("boom").data⟩) (("x").data)
      = caughtFailedResult ⟨("boom").data⟩ :=
  claim5_transport_contained (fun _ _ => .error ⟨("boom").data⟩) (("x").data)
    ⟨("boom").data⟩ rfl

/-- C5, counterexample to the claim as stated: when the adapter throws on the
chunk query of a single-chunk document, the exception does not surface at the
orchestrator as `{success:false, error}` — the envelope still has
`success:true` and no error, embedding the caught failure as the chunk
result. -/
theorem claim5_counterexample :
    (analyzeDocument oracleChunkThrows (("short doc").data) (("comprehensive").data)).1.success
      = true ∧
    (analyzeDocument oracleChunkThrows (("short doc").data) (("comprehensive").data)).1.error
      = none ∧
    analyzeChunkWithLLM oracleChunkThrows (("short doc").data)
      = caughtFailedResult ⟨("network down").data⟩ := by
  refine ⟨?_, ?_, ?_⟩ <;> decide

/-- The `while` loop of `DocAnalyzer._splitIntoChunks` in
`src/analyzers/doc-analyzer.js` (fuel-indexed; `none` means the fuel ran out,
so a result for every fuel value is genuine termination).  Per iteration:
`end = min(position + maxChunkSize, length)`, push the slice, set
`position = end - overlapSize`, and break only when `position <= 0` or
`maxChunkSize <= overlapSize`. -/
def daSplitLoop (text : Str) (maxChunkSize overlapSize : Nat) :
    Nat → Nat → List Str → Option (List Str)
  | 0 => fun _ _ => none
  | f + 1 => fun position chunks =>
    if position < text.length then
      let e := min (position + maxChunkSize) text.length
      let chunks2 := chunks ++ [jsSubstring text position e]
      let position2 := e - overlapSize
      if position2 = 0 ∨ maxChunkSize ≤ overlapSize then some chunks2
      else daSplitLoop text maxChunkSize overlapSize f position2 chunks2
    else some chunks

/-- `DocAnalyzer._splitIntoChunks` of `src/analyzers/doc-analyzer.js`:
single chunk for short documents, otherwise the loop from position 0. -/
def daSplitIntoChunks (document : Str) (maxChunkSize overlapSize : Nat) (fuel : Nat) :
    Option (List Str) :=
  if document.length ≤ maxChunkSize then some [document]
  else daSplitLoop document maxChunkSize overlapSize fuel 0 []

/-- Termination of the `doc-analyzer.js` splitter on an input: some fuel
suffices for the loop to return. -/
def daSplitTerminates (document : Str) (maxChunkSize overlapSize : Nat) : Prop :=
  ∃ fuel out, daSplitIntoChunks document maxChunkSize overlapSize fuel = some out

/-- The large document of the repository's own unit test
(`'A'.repeat(10000)`). -/
def tenKA : Str := List.replicate 10000 'A'

theorem tenKA_length : tenKA.length = 10000 := by
  rw [tenKA, List.length_replicate]

theorem daLoop_stall :
    ∀ (f : Nat) (chunks : List Str), daSplitLoop tenKA 4000 200 f 9800 chunks = none := by
  intro f
  induction f with
  | zero => intro chunks; rfl
  | succ k ih =>
    intro chunks
    rw [daSplitLoop]
    simp only [tenKA_length]
    norm_num
    exact ih _

theorem daLoop_at7600 :
    ∀ (f : Nat) (chunks : List Str), daSplitLoop tenKA 4000 200 f 7600 chunks = none := by
  intro f chunks
  cases f with
  | zero => rfl
  | succ k =>
    rw [daSplitLoop]
    simp only [tenKA_length]
    norm_num
    exact daLoop_stall _ _

theorem daLoop_at3800 :
    ∀ (f : Nat) (chunks : List Str), daSplitLoop tenKA 4000 200 f 3800 chunks = none := by
  intro f chunks
  cases f with
  | zero => rfl
  | succ k =>
    rw [daSplitLoop]
    simp only [tenKA_length]
    norm_num
    exact daLoop_at7600 _ _

theorem daLoop_at0 :
    ∀ (f : Nat) (chunks : List Str), daSplitLoop tenKA 4000 200 f 0 chunks = none := by
  intro f chunks
  cases f with
  | zero => rfl
  | succ k =>
    rw [daSplitLoop]
    simp only [tenKA_length]
    norm_num
    exact daLoop_at3800 _ _

/-- C3 (code bug): the splitter of `src/analyzers/doc-analyzer.js` never
terminates on the repository's own unit-test input — 10000 characters with
the default `maxChunkSize = 4000` and `overlapSize = 200`, a configuration
squarely inside the claimed range `0 ≤ overlapSize < maxChunkSize` — because
once `end` reaches the text length, `position` stabilises at
`length - overlapSize` and the loop guard never fires. -/
theorem claim3_split_nontermination : ¬ daSplitTerminates tenKA 4000 200 := by
  intro h
  obtain ⟨fuel, out, hrun⟩ := h
  unfold daSplitIntoChunks at hrun
  rw [tenKA_length, if_neg (by omega)] at hrun
  rw [daLoop_at0] at hrun
  exact Option.noConfusion hrun

/-- The character spans `[start, end)` of the operative splitter's chunks:
`(i, min (i + 4000) len)` for `i = 0, 4000, ...` while `i < len`
(fuel-indexed like `effSplitGo`). -/
def effSpansGo : Nat → Nat → Nat → List (Nat × Nat)
  | 0 => fun _ _ => []
  | f + 1 => fun len i =>
    if i < len then (i, min (i + 4000) len) :: effSpansGo f len (i + 4000) else []

/-- The spans of the operative splitter on a text of length `len`. -/
def effSpans (len : Nat) : List (Nat × Nat) := effSpansGo len len 0

/-- `spansChainB s spans len` holds when the spans start exactly at `s`, are
contiguous (each span begins where the previous one ended), each is nonempty,
and they end exactly at `len` — so their union is exactly `[s, len)` with no
gaps and nothing beyond the text. -/
def spansChainB (s : Nat) : List (Nat × Nat) → Nat → Bool
  | [], len => s == len
  | (a, b) :: rest, len => a == s && decide (s < b) && spansChainB b rest len

theorem effSpansGo_chain : ∀ (f i len : Nat), len - i ≤ f → i ≤ len →
    spansChainB i (effSpansGo f len i) len = true := by
  intro f
  induction f with
  | zero =>
    intro i len hf hi
    have : i = len := by omega
    subst this
    simp [effSpansGo, spansChainB]
  | succ k ih =>
    intro i len hf hi
    simp only [effSpansGo]
    by_cases hlt : i < len
    · rw [if_pos hlt]
      by_cases hend : i + 4000 < len
      · have hmin : min (i + 4000) len = i + 4000 := by omega
        rw [hmin]
        simp only [spansChainB]
        rw [ih (i + 4000) len (by omega) (by omega)]
        simp
      · have hmin : min (i + 4000) len = len := by omega
        rw [hmin]
        simp only [spansChainB]
        have hnext : effSpansGo k len (i + 4000) = [] := by
          cases k with
          | zero => rfl
          | succ m =>
            simp only [effSpansGo]
            rw [if_neg (by omega)]
        rw [hnext]
        simp [spansChainB]
        omega
    · rw [if_neg hlt]
      have : i = len := by omega
      subst this
      simp [spansChainB]

theorem effSplitGo_eq_spans : ∀ (f : Nat) (l : Str) (i : Nat),
    effSplitGo f (l.drop i) =
      (effSpansGo f l.length i).map (fun se => (l.drop se.1).take (se.2 - se.1)) := by
  intro f
  induction f with
  | zero => intro l i; rfl
  | succ k ih =>
    intro l i
    rw [effSplitGo]
    simp only [effSpansGo]
    by_cases hlt : i < l.length
    · have hne : l.drop i ≠ [] := by
        intro hcon
        have := List.drop_eq_nil_iff.mp hcon
        omega
      rw [if_neg hne, if_pos hlt]
      simp only [List.map_cons]
      congr 1
      · -- heads agree: take 4000 of the suffix is the span's slice
        have hlen : (l.drop i).length = l.length - i := List.length_drop i l
        by_cases hend : i + 4000 ≤ l.length
        · have : min (i + 4000) l.length - i = 4000 := by omega
          rw [this]
        · have h1 : min (i + 4000) l.length - i = l.length - i := by omega
          rw [h1]
          rw [List.take_of_length_le (by omega), List.take_of_length_le (by omega)]
      · rw [List.drop_drop]
        exact ih l (i + 4000)
    · have hnil : l.drop i = [] := List.drop_eq_nil_iff.mpr (by omega)
      rw [hnil, if_pos rfl, if_neg hlt]
      rfl

/-- C7: for every text and every valid configuration (`maxChunkSize > 0`,
`0 ≤ overlapSize < maxChunkSize`), the operative splitter's chunks carry
contiguous, increasing spans whose union is exactly `[0, len)` — no gaps and
nothing beyond the text — and the chunks are exactly the corresponding
slices of the text.  (The operative splitter reads neither option, so the
coverage holds for every configuration.) -/
theorem claim7_coverage (maxChunkSize overlapSize : Nat) (l : Str)
    (_hmax : 0 < maxChunkSize) (_hov : overlapSize < maxChunkSize) :
    spansChainB 0 (effSpans l.length) l.length = true ∧
    effSplitIntoChunks l =
      (effSpans l.length).map (fun se => (l.drop se.1).take (se.2 - se.1)) := by
  constructor
  · exact effSpansGo_chain l.length 0 l.length (by omega) (by omega)
  · unfold effSplitIntoChunks effSpans
    by_cases hnil : l = []
    · subst hnil
      rfl
    · rw [if_neg hnil]
      have := effSplitGo_eq_spans l.length l 0
      rw [List.drop_zero] at this
      exact this

/-- C7 witness: the coverage statement at a concrete text and
configuration. -/
theorem claim7_coverage_witness :
    spansChainB 0 (effSpans (("ab").data).length) (("ab").data).length = true ∧
    effSplitIntoChunks (("ab").data) =
      (effSpans (("ab").data).length).map
        (fun se => ((("ab").data).drop se.1).take (se.2 - se.1)) :=
  claim7_coverage 4000 200 (("ab").data) (by omega) (by omega)

/-- Scanner deciding whether every double quote in a string is immediately
preceded by a backslash (`prevBackslash` says whether the previous character
was one). -/
def aqeGo : Bool → Str → Bool
  | _, [] => true
  | prevBackslash, c :: rest =>
    (if c = '"' then prevBackslash else true) && aqeGo (decide (c = '\\')) rest

/-- Every double quote in `s` is immediately preceded by a backslash. -/
def allQuotesEscaped (s : Str) : Bool := aqeGo false s

theorem mem_stripGo {a : Char} : ∀ (f : Nat) (s : Str), a ∈ stripGo f s → a ∈ s := by
  intro f
  induction f with
  | zero => intro s h; simp [stripGo] at h
  | succ k ih =>
    intro s h
    cases s with
    | nil => simp [stripGo] at h
    | cons c rest =>
      rw [stripGo] at h
      split at h
      · exact List.mem_of_mem_drop (ih _ h)
      · split at h
        · exact List.mem_of_mem_drop (ih _ h)
        · rcases List.mem_cons.mp h with h1 | h1
          · simp [h1]
          · simp [ih _ h1]

theorem mem_jsTrim {a : Char} {s : Str} (h : a ∈ jsTrim s) : a ∈ s := by
  unfold jsTrim at h
  rw [List.mem_reverse] at h
  have h1 := (List.dropWhile_sublist isJsWs).mem h
  rw [List.mem_reverse] at h1
  exact (List.dropWhile_sublist isJsWs).mem h1

theorem mem_escQuotesGo {a : Char} : ∀ (s : Str) (prev : Option Char),
    a ∈ escQuotesGo prev s → a ∈ s ∨ a = '\\' := by
  intro s
  induction s with
  | nil => intro prev h; simp [escQuotesGo] at h
  | cons c rest ih =>
    intro prev h
    rw [escQuotesGo] at h
    split at h
    · rcases List.mem_cons.mp h with h1 | h1
      · exact Or.inr h1
      · rcases List.mem_cons.mp h1 with h2 | h2
        · rename_i hcond
          exact Or.inl (by simp [h2, hcond.1])
        · rcases ih (some '"') h2 with h3 | h3
          · exact Or.inl (List.mem_cons_of_mem c h3)
          · exact Or.inr h3
    · rcases List.mem_cons.mp h with h1 | h1
      · exact Or.inl (by simp [h1])
      · rcases ih (some c) h1 with h3 | h3
        · exact Or.inl (List.mem_cons_of_mem c h3)
        · exact Or.inr h3

theorem mem_collapse {a : Char} : ∀ (s : Str), a ∈ collapseDoubleEscPass s → a ∈ s := by
  intro s
  induction s using collapseDoubleEscPass.induct with
  | case1 rest ih =>
    intro h
    rw [collapseDoubleEscPass] at h
    rcases List.mem_cons.mp h with h1 | h1
    · simp [h1]
    · rcases List.mem_cons.mp h1 with h2 | h2
      · simp [h2]
      · simp [ih h2]
  | case2 c rest hne ih =>
    intro h
    rw [collapseDoubleEscPass.eq_2 c rest hne] at h
    rcases List.mem_cons.mp h with h1 | h1
    · simp [h1]
    · simp [ih h1]
  | case3 =>
    intro h
    simp [collapseDoubleEscPass] at h

theorem esc_ok : ∀ (s : Str) (prev : Option Char),
    aqeGo (decide (prev = some '\\')) (escQuotesGo prev s) = true := by
  intro s
  induction s with
  | nil => intro prev; rfl
  | cons c rest ih =>
    intro prev
    rw [escQuotesGo]
    split
    · rename_i hcond
      have h1 := ih (some '"')
      rw [show (decide ((some '"' : Option Char) = some '\\')) = false from by decide] at h1
      simpa [aqeGo] using h1
    · rename_i hcond
      have hfac : (if c = '"' then decide (prev = some '\\') else true) = true := by
        by_cases hc : c = '"'
        · rw [if_pos hc]
          have : prev = some '\\' := by
            by_contra hp
            exact hcond ⟨hc, hp⟩
          simp [this]
        · rw [if_neg hc]
      have h2 := ih (some c)
      rw [show (decide ((some c : Option Char) = some '\\')) = decide (c = '\\') from by
        simp] at h2
      simp [aqeGo, hfac, h2]

theorem collapse_ok : ∀ (s : Str) (pb : Bool),
    aqeGo pb s = true → aqeGo pb (collapseDoubleEscPass s) = true := by
  intro s
  induction s using collapseDoubleEscPass.induct with
  | case1 rest ih =>
    intro pb h
    rw [collapseDoubleEscPass]
    simp [aqeGo] at h ⊢
    exact ih false h
  | case2 c rest hne ih =>
    intro pb h
    rw [collapseDoubleEscPass.eq_2 c rest hne]
    simp [aqeGo] at h ⊢
    exact ⟨h.1, ih _ h.2⟩
  | case3 =>
    intro pb h
    exact h

theorem singleQuotes_id {s : Str} (h : '\x27' ∉ s) : singleQuotesPass s = s := by
  unfold singleQuotesPass
  induction s with
  | nil => rfl
  | cons c rest ih =>
    simp only [List.map_cons]
    have hc : c ≠ '\x27' := fun hcon => h (by simp [hcon])
    rw [if_neg hc]
    rw [ih (fun hcon => h (List.mem_cons_of_mem c hcon))]

/-- C10 (amended): the quote-normalisation pass of `_attemptJsonFix` leaves
every double quote backslash-prefixed whenever the input has no single
quotes — so for such inputs the normalised candidate never contains a bare
double quote.  (The claim's conclusion that repair always returns null on
inputs containing a double quote is false: the single-quote pass can
legalise the escaped quotes, see the counterexample.) -/
theorem claim10_escape_invariant (s : Str) (h : '\x27' ∉ s) :
    allQuotesEscaped (fixNormalize s) = true := by
  unfold fixNormalize
  have h1 : '\x27' ∉ stripCodeFences s := fun hc => h (mem_stripGo _ _ hc)
  have h2 : '\x27' ∉ jsTrim (stripCodeFences s) := fun hc => h1 (mem_jsTrim hc)
  have h3 : '\x27' ∉ escQuotesGo none (jsTrim (stripCodeFences s)) := by
    intro hc
    rcases mem_escQuotesGo _ none hc with hm | hm
    · exact h2 hm
    · exact absurd hm (by decide)
  have h4 : '\x27' ∉ collapseDoubleEscPass (escQuotesGo none (jsTrim (stripCodeFences s))) :=
    fun hc => h3 (mem_collapse _ hc)
  rw [show escapeQuotesPass (jsTrim (stripCodeFences s))
      = escQuotesGo none (jsTrim (stripCodeFences s)) from rfl]
  rw [singleQuotes_id h4]
  unfold allQuotesEscaped
  apply collapse_ok
  have := esc_ok (jsTrim (stripCodeFences s)) none
  rw [show (decide ((none : Option Char) = some '\\')) = false from by decide] at this
  exact this

/-- C10 witness: the escaping invariant at a concrete single-quote-free
input. -/
theorem claim10_escape_invariant_witness :
    allQuotesEscaped (fixNormalize (("\x7b\"a\":1\x7d").data)) = true :=
  claim10_escape_invariant (("\x7b\"a\":1\x7d").data) (by decide)

/-- C10, counterexample to the claim as stated: the input `{'a':'b"c'}`
contains a double quote, yet `_attemptJsonFix` repairs it to the object
`{a: 'b"c'}` (the escaped quote becomes a legal in-string escape once the
single quotes are turned into double quotes), so repair does not return null
for every input containing a double quote. -/
theorem claim10_counterexample :
    attemptJsonFix (("\x7b'a':'b\"c'\x7d").data) = some (.obj [("a", .str "b\"c")]) ∧
    '"' ∈ (("\x7b'a':'b\"c'\x7d").data) := by
  constructor
  · decide
  · decide

/-- The paragraph-break needle of the boundary-preferring splitter. -/
def parBreakStr : Str := ['\n', '\n']

/-- The sentence-end needle of the boundary-preferring splitter. -/
def sentBreakStr : Str := ['.', ' ']

/-- Cut-point selection of the first (shadowed) `_splitIntoChunks` definition,
for one iteration with chunk start `startPos` (only reached when
`startPos + maxChunkSize < text.length`): prefer the last paragraph break at
or before the hard cut, then the last sentence end, then the hard cut; a
candidate is rejected when `splitPos <= startPos` or
`splitPos < endPos - maxChunkSize/2` (the float halving is modelled exactly
by doubling both sides). -/
def v1CutPoint (text : Str) (startPos maxChunkSize : Nat) : Int :=
  let endPos : Int := (startPos : Int) + (maxChunkSize : Int)
  let para := jsLastIndexOf text parBreakStr (startPos + maxChunkSize)
  let afterPara :=
    if para ≤ (startPos : Int) ∨ 2 * para < 2 * endPos - (maxChunkSize : Int) then
      jsLastIndexOf text sentBreakStr (startPos + maxChunkSize)
    else para
  if afterPara ≤ (startPos : Int) ∨ 2 * afterPara < 2 * endPos - (maxChunkSize : Int) then
    endPos
  else afterPara

/-- Modelled from the spec: the greatest index at or before `limit` at which
`needle` occurs, as an `Option` (the spec's "nearest preceding" break). -/
def nearestBreak (text needle : Str) (limit : Nat) : Option Nat :=
  let g := Nat.findGreatest (fun i => needleAt text needle i = true) limit
  if needleAt text needle g then some g else none

/-- Modelled from the spec: a candidate break is accepted only if it lies
strictly after the chunk start and not more than `maxChunkSize/2` characters
before the hard-cut point. -/
def specAcceptable (startPos maxChunkSize hard cand : Nat) : Bool :=
  decide (startPos < cand) && decide (2 * (hard - cand) ≤ maxChunkSize)

/-- Modelled from the spec: the cut point chosen by preferring, in order, the
nearest preceding paragraph break, the nearest preceding sentence end, and
the hard cut, each candidate subject to `specAcceptable`, falling through to
the next-weaker rule otherwise. -/
def specCutPoint (text : Str) (startPos maxChunkSize : Nat) : Nat :=
  let hard := startPos + maxChunkSize
  let sentPart :=
    match nearestBreak text sentBreakStr hard with
    | some q => if specAcceptable startPos maxChunkSize hard q then q else hard
    | none => hard
  match nearestBreak text parBreakStr hard with
  | some p => if specAcceptable startPos maxChunkSize hard p then p else sentPart
  | none => sentPart

theorem needleAt_lt_length {hay needle : Str} {k : Nat} (hne : needle ≠ [])
    (h : needleAt hay needle k = true) : k < hay.length := by
  simp only [needleAt, decide_eq_true_eq] at h
  by_contra hk
  push_neg at hk
  rw [List.drop_eq_nil_of_le hk] at h
  simp at h
  exact hne h

theorem lastSubAux_some_spec {hay needle : Str} : ∀ (i j : Nat),
    lastSubAux hay needle i = some j →
    j ≤ i ∧ needleAt hay needle j = true ∧
      ∀ k, j < k → k ≤ i → needleAt hay needle k = false := by
  intro i
  induction i with
  | zero =>
    intro j h
    rw [lastSubAux] at h
    split at h
    · rename_i hP
      cases h
      exact ⟨le_refl 0, hP, fun k h1 h2 => by omega⟩
    · cases h
  | succ m ih =>
    intro j h
    rw [lastSubAux] at h
    split at h
    · rename_i hP
      cases h
      exact ⟨le_refl _, hP, fun k h1 h2 => by omega⟩
    · rename_i hP
      obtain ⟨h1, h2, h3⟩ := ih j h
      refine ⟨by omega, h2, fun k hk1 hk2 => ?_⟩
      by_cases hkm : k ≤ m
      · exact h3 k hk1 hkm
      · have : k = m + 1 := by omega
        subst this
        simpa using hP

theorem lastSubAux_none_spec {hay needle : Str} : ∀ (i : Nat),
    lastSubAux hay needle i = none → ∀ k, k ≤ i → needleAt hay needle k = false := by
  intro i
  induction i with
  | zero =>
    intro h k hk
    rw [lastSubAux] at h
    split at h
    · cases h
    · rename_i hP
      have : k = 0 := by omega
      subst this
      simpa using hP
  | succ m ih =>
    intro h k hk
    rw [lastSubAux] at h
    split at h
    · cases h
    · rename_i hP
      by_cases hkm : k ≤ m
      · exact ih h k hkm
      · have : k = m + 1 := by omega
        subst this
        simpa using hP

theorem jsLast_eq_nearestBreak (hay needle : Str) (limit : Nat) (hne : needle ≠ []) :
    jsLastIndexOf hay needle limit =
      (match nearestBreak hay needle limit with
       | some j => (j : Int)
       | none => -1) := by
  unfold jsLastIndexOf nearestBreak
  cases haux : lastSubAux hay needle (min limit hay.length) with
  | some j =>
    obtain ⟨hj_le, hPj, hmax⟩ := lastSubAux_some_spec _ j haux
    have hglobal : ∀ k, j < k → k ≤ limit → ¬(needleAt hay needle k = true) := by
      intro k hk1 hk2 hP
      have hlen := needleAt_lt_length hne hP
      have hkm : k ≤ min limit hay.length := by omega
      rw [hmax k hk1 hkm] at hP
      cases hP
    have hfg : Nat.findGreatest (fun i => needleAt hay needle i = true) limit = j := by
      rw [Nat.findGreatest_eq_iff]
      exact ⟨by omega, fun _ => hPj, hglobal⟩
    rw [hfg, if_pos hPj]
  | none =>
    have hnone := lastSubAux_none_spec _ haux
    have hglobal : ∀ k, k ≤ limit → ¬(needleAt hay needle k = true) := by
      intro k hk hP
      have hlen := needleAt_lt_length hne hP
      have hkm : k ≤ min limit hay.length := by omega
      rw [hnone k hkm] at hP
      cases hP
    have hfg : Nat.findGreatest (fun i => needleAt hay needle i = true) limit = 0 := by
      rw [Nat.findGreatest_eq_iff]
      exact ⟨Nat.zero_le _, fun h0 => absurd rfl h0, fun n h1 h2 => hglobal n h2⟩
    rw [hfg, if_neg]
    simp [hglobal 0 (Nat.zero_le _)]

theorem nearestBreak_le {text needle : Str} {limit j : Nat}
    (h : nearestBreak text needle limit = some j) : j ≤ limit := by
  simp only [nearestBreak] at h
  split at h
  · cases h
    exact Nat.findGreatest_le limit
  · cases h

/-- C6 (amended): the boundary-preference rule describes only the first,
shadowed `_splitIntoChunks` definition; there it holds exactly — for every
text, chunk start and chunk size, the shadowed definition's cut point equals
the cut point prescribed by the spec's preference order (paragraph break,
then sentence end, then hard cut, with a candidate accepted only when it lies
strictly after the start and at most `maxChunkSize/2` before the hard cut).
The operative splitter ignores the rule entirely (see the counterexample). -/
theorem claim6_cutpoint_amended (text : Str) (startPos maxChunkSize : Nat) :
    v1CutPoint text startPos maxChunkSize
      = (specCutPoint text startPos maxChunkSize : Int) := by
  simp only [v1CutPoint, specCutPoint]
  rw [jsLast_eq_nearestBreak text parBreakStr (startPos + maxChunkSize) (by decide),
      jsLast_eq_nearestBreak text sentBreakStr (startPos + maxChunkSize) (by decide)]
  cases hpar : nearestBreak text parBreakStr (startPos + maxChunkSize) with
  | some p =>
    have hple := nearestBreak_le hpar
    cases hsent : nearestBreak text sentBreakStr (startPos + maxChunkSize) with
    | some q =>
      have hqle := nearestBreak_le hsent
      dsimp only
      split_ifs <;>
        simp only [specAcceptable, Bool.and_eq_true, decide_eq_true_eq, not_and,
          not_le, not_lt] at * <;>
        push_cast at * <;>
        omega
    | none =>
      dsimp only
      split_ifs <;>
        simp only [specAcceptable, Bool.and_eq_true, decide_eq_true_eq, not_and,
          not_le, not_lt] at * <;>
        push_cast at * <;>
        omega
  | none =>
    cases hsent : nearestBreak text sentBreakStr (startPos + maxChunkSize) with
    | some q =>
      have hqle := nearestBreak_le hsent
      dsimp only
      split_ifs <;>
        simp only [specAcceptable, Bool.and_eq_true, decide_eq_true_eq, not_and,
          not_le, not_lt] at * <;>
        push_cast at * <;>
        omega
    | none =>
      dsimp only
      split_ifs <;> push_cast <;> omega
def tC6 : Str := "abcde. hijklm".data

/-- C6 counterexample: on the 13-character text "abcde. hijklm" with
maxChunkSize 8, the preference rule picks the sentence break at index 5
(it lies strictly after the start and only 3 < 8/2 characters before the
hard cut at 8), yet the operative splitter returns the whole text as a
single chunk — it cuts every 4000 characters and reads neither
maxChunkSize nor the break positions. -/
theorem claim6_counterexample :
    8 < tC6.length ∧
    specCutPoint tC6 0 8 = 5 ∧
    effSplitIntoChunks tC6 = [tC6] := by
  refine ⟨by decide, by decide, by decide⟩
/-- The first occurrence of `c` in `t` is at index `i`: `t[i] = c` and no
earlier index holds `c`. -/
def firstOccP (t : Str) (c : Char) (i : Nat) : Prop :=
  t[i]? = some c ∧ ∀ m, m < i → t[m]? ≠ some c

/-- The last occurrence of `c` in `t` is at index `j`: `t[j] = c` and no
later index holds `c`. -/
def lastOccP (t : Str) (c : Char) (j : Nat) : Prop :=
  t[j]? = some c ∧ ∀ m, m < t.length → j < m → t[m]? ≠ some c

instance (t : Str) (c : Char) (i : Nat) : Decidable (firstOccP t c i) := by
  unfold firstOccP
  infer_instance

instance (t : Str) (c : Char) (j : Nat) : Decidable (lastOccP t c j) := by
  unfold lastOccP
  infer_instance

theorem firstIdxAux_none (c : Char) (t : Str) :
    (∀ x ∈ t, x ≠ c) → ∀ k, firstIdxAux (fun x => x = c) t k = none := by
  induction t with
  | nil => intro _ k; rfl
  | cons x rest ih =>
    intro h k
    have hx : x ≠ c := h x (by simp)
    simp only [firstIdxAux, decide_eq_true_eq, hx, if_false]
    exact ih (fun y hy => h y (by simp [hy])) (k + 1)

theorem firstIdxAux_first (c : Char) (t : Str) : ∀ (i k : Nat),
    t[i]? = some c → (∀ m, m < i → t[m]? ≠ some c) →
    firstIdxAux (fun x => x = c) t k = some (k + i) := by
  induction t with
  | nil => intro i k hi _; simp at hi
  | cons x rest ih =>
    intro i k hi hm
    cases i with
    | zero =>
      have hx : x = c := by simpa using hi
      simp [firstIdxAux, hx]
    | succ n =>
      have hx : x ≠ c := by
        have h0 := hm 0 (Nat.succ_pos n)
        simpa using h0
      have hi' : rest[n]? = some c := by simpa using hi
      have hm' : ∀ m, m < n → rest[m]? ≠ some c := by
        intro m hmn
        have := hm (m + 1) (by omega)
        simpa using this
      simp only [firstIdxAux, decide_eq_true_eq, hx, if_false]
      rw [ih n (k + 1) hi' hm']
      simp only [Option.some.injEq]
      omega

theorem lastIdxAux_none (c : Char) (t : Str) :
    (∀ x ∈ t, x ≠ c) → ∀ (k : Nat) (acc : Option Nat),
      lastIdxAux (fun x => x = c) t k acc = acc := by
  induction t with
  | nil => intro _ k acc; rfl
  | cons x rest ih =>
    intro h k acc
    have hx : x ≠ c := h x (by simp)
    simp only [lastIdxAux, decide_eq_true_eq, hx, if_false]
    exact ih (fun y hy => h y (by simp [hy])) (k + 1) acc

theorem lastIdxAux_last (c : Char) (t : Str) : ∀ (j k : Nat) (acc : Option Nat),
    t[j]? = some c → (∀ m, m < t.length → j < m → t[m]? ≠ some c) →
    lastIdxAux (fun x => x = c) t k acc = some (k + j) := by
  induction t with
  | nil => intro j k acc hj _; simp at hj
  | cons x rest ih =>
    intro j k acc hj hm
    cases j with
    | zero =>
      have hx : x = c := by simpa using hj
      have hrest : ∀ y ∈ rest, y ≠ c := by
        intro y hy hyc
        obtain ⟨n, hn⟩ := List.mem_iff_getElem?.mp hy
        have hcon := hm (n + 1)
          (by
            have : n < rest.length := by
              by_contra hge
              push_neg at hge
              rw [List.getElem?_eq_none hge] at hn
              cases hn
            simp only [List.length_cons]
            omega)
          (Nat.succ_pos n)
        rw [List.getElem?_cons_succ, hn, hyc] at hcon
        exact hcon rfl
      simp only [lastIdxAux, decide_eq_true_eq, hx, eq_self_iff_true, if_true]
      rw [lastIdxAux_none c rest hrest (k + 1) (some k)]
      simp
    | succ n =>
      have hj' : rest[n]? = some c := by simpa using hj
      have hm' : ∀ m, m < rest.length → n < m → rest[m]? ≠ some c := by
        intro m hml hnm
        have := hm (m + 1) (by simp only [List.length_cons]; omega) (by omega)
        simpa using this
      simp only [lastIdxAux]
      rw [ih n (k + 1) _ hj' hm']
      simp only [Option.some.injEq]
      omega

theorem jsIndexOfChar_first {t : Str} {c : Char} {i : Nat} (h : firstOccP t c i) :
    jsIndexOfChar t c = (i : Int) := by
  obtain ⟨hi, hm⟩ := h
  unfold jsIndexOfChar
  rw [firstIdxAux_first c t i 0 hi hm]
  simp

theorem jsIndexOfChar_neg {t : Str} {c : Char} (h : c ∉ t) :
    jsIndexOfChar t c = -1 := by
  unfold jsIndexOfChar
  rw [firstIdxAux_none c t (fun x hx hxc => h (hxc ▸ hx)) 0]

theorem jsLastIndexOfChar_last {t : Str} {c : Char} {j : Nat} (h : lastOccP t c j) :
    jsLastIndexOfChar t c = (j : Int) := by
  obtain ⟨hj, hm⟩ := h
  unfold jsLastIndexOfChar
  rw [lastIdxAux_last c t j 0 none hj hm]
  simp

theorem jsLastIndexOfChar_neg {t : Str} {c : Char} (h : c ∉ t) :
    jsLastIndexOfChar t c = -1 := by
  unfold jsLastIndexOfChar
  rw [lastIdxAux_none c t (fun x hx hxc => h (hxc ▸ hx)) 0 none]

theorem exists_firstOcc {c : Char} {t : Str} (h : c ∈ t) : ∃ i, firstOccP t c i := by
  induction t with
  | nil => cases h
  | cons x rest ih =>
    by_cases hx : x = c
    · exact ⟨0, by simp [firstOccP, hx]⟩
    · have hc : c ∈ rest := by
        rcases List.mem_cons.mp h with h1 | h2
        · exact absurd h1.symm hx
        · exact h2
      obtain ⟨i, hi, hm⟩ := ih hc
      refine ⟨i + 1, by simpa using hi, ?_⟩
      intro m hmi
      cases m with
      | zero =>
        simp only [List.getElem?_cons_zero, ne_eq, Option.some.injEq]
        exact hx
      | succ n =>
        have := hm n (by omega)
        simpa using this

theorem exists_lastOcc {c : Char} {t : Str} (h : c ∈ t) : ∃ j, lastOccP t c j := by
  induction t with
  | nil => cases h
  | cons x rest ih =>
    by_cases hc : c ∈ rest
    · obtain ⟨j, hj, hm⟩ := ih hc
      refine ⟨j + 1, by simpa using hj, ?_⟩
      intro m hml hjm
      cases m with
      | zero => omega
      | succ n =>
        have := hm n (by simp only [List.length_cons] at hml; omega) (by omega)
        simpa using this
    · have hx : x = c := by
        rcases List.mem_cons.mp h with h1 | h2
        · exact h1.symm
        · exact absurd h2 hc
      refine ⟨0, by simp [hx], ?_⟩
      intro m hml h0m
      cases m with
      | zero => omega
      | succ n =>
        simp only [List.getElem?_cons_succ, ne_eq]
        intro hn
        exact hc (List.mem_iff_getElem?.mpr ⟨n, hn⟩)

def scenario3Str : Str :=
  "Sure! Here is the JSON: \x7b\"title\":\"X\"\x7d Hope that helps!".data

def jsonCandidateStr : Str := "\x7b\"title\":\"X\"\x7d".data

/-- C8: for every model-output string, `_extractJsonFromText` returns the
inclusive substring from the first opening brace to the last closing brace
whenever both occur with the first brace strictly before the last one, and
returns null otherwise; on the concrete scenario input it returns exactly
the candidate, which parses directly to the object with title "X". -/
theorem claim8_extract :
    (∀ (t : Str) (i j : Nat), firstOccP t '\x7b' i → lastOccP t '\x7d' j → i < j →
        extractJsonFromText t = some (jsSubstring t i (j + 1))) ∧
    (∀ t : Str, (¬ ∃ i j, firstOccP t '\x7b' i ∧ lastOccP t '\x7d' j ∧ i < j) →
        extractJsonFromText t = none) ∧
    extractJsonFromText scenario3Str = some jsonCandidateStr ∧
    jsonParse jsonCandidateStr = some (JsValue.obj [("title", JsValue.str "X")]) := by
  refine ⟨?_, ?_, by decide, by decide⟩
  · intro t i j hfi hlj hij
    have hi := hfi.1
    have htne : t ≠ [] := by
      intro h0
      subst h0
      simp at hi
    simp only [extractJsonFromText]
    rw [if_neg htne, jsIndexOfChar_first hfi, jsLastIndexOfChar_last hlj,
      if_pos ⟨Int.ofNat_nonneg i, by exact_mod_cast hij⟩]
    simp
  · intro t hno
    by_cases ht : t = []
    · subst ht
      rfl
    · simp only [extractJsonFromText]
      rw [if_neg ht]
      by_cases hbr : '\x7b' ∈ t
      · obtain ⟨i, hfi⟩ := exists_firstOcc hbr
        rw [jsIndexOfChar_first hfi]
        by_cases hrb : '\x7d' ∈ t
        · obtain ⟨j, hlj⟩ := exists_lastOcc hrb
          rw [jsLastIndexOfChar_last hlj]
          have hji : ¬ i < j := fun hij => hno ⟨i, j, hfi, hlj, hij⟩
          rw [if_neg]
          rintro ⟨_, h2⟩
          exact hji (by exact_mod_cast h2)
        · rw [jsLastIndexOfChar_neg hrb]
          rw [if_neg]
          rintro ⟨h1, h2⟩
          omega
      · rw [jsIndexOfChar_neg hbr]
        rw [if_neg]
        rintro ⟨h1, _⟩
        omega

theorem claim8_extract_witness :
    extractJsonFromText ("a\x7bb\x7dc".data) = some ("\x7bb\x7d".data) := by
  have h := claim8_extract.1 ("a\x7bb\x7dc".data) 1 3 (by decide) (by decide)
    (by decide)
  simpa using h
